import Mathlib

/-!
# `xla::PjRtEvent<T>` (tensorflow/compiler/xla/pjrt/pjrt_event.h)

A shallow embedding of the header and of the part of the asynchronous value
library it drives, followed by the properties of the event wrapper.

The header is translated method by method.  The asynchronous value cell, its
references and the host context's blocking wait live in the `tf_runtime`
library, outside this source tree; they are modelled from the specification
and every such definition says so in its doc comment.

Sequential reading of the concurrent program: a `World` is the heap of cells,
the list of `Set` calls that producer threads are still going to make, and the
trace of observable effects.  The only point where the calling thread yields to
the producers is the host context's `Await`.
-/

namespace xla

/-! ## Faults -/

/-- Ways in which a call fails to return: a contract violation that aborts the
program, or a wait that never ends. -/
inductive Fault where
  /-- A null reference or a null host context is dereferenced. -/
  | nullDeref
  /-- A reference to an address that holds no cell. -/
  | dangling
  /-- A value is constructed in a cell that already holds one. -/
  | contractViolation
  /-- The value of a cell is read before the cell is concrete. -/
  | prematureAccess
  /-- A `DCHECK` of the header fails. -/
  | dcheckFailed
  /-- The wait is never ended: no producer sets the awaited cell. -/
  | blockedForever
  deriving DecidableEq, Repr

/-! ## `PjRtEventContext::ProfilingKeys` -/

/-- Source: `struct ProfilingKeys { uint64_t traceme_context_id = -1; }`: the default
is `-1` converted to a 64-bit unsigned integer. -/
structure ProfilingKeys where
  traceme_context_id : Nat := (2 ^ 64 - 1) % 2 ^ 64
  deriving DecidableEq, Repr

/-! ## The asynchronous value cell -/

/-- Modelled from the spec: the state of a `tfrt::AsyncValue` cell, which the
header uses but does not define.  The spec's cell is `Unset` or `Concrete(v)`;
the header asks the library two different questions, `IsAvailable` and
`IsConcrete`, because the library's cell can also be available with an error.
That third state is kept here so that "no error state is reached" is a
property to prove rather than a property of the type. -/
inductive AsyncState (T : Type) where
  | unconstructed
  | concrete (value : T)
  | error
  deriving DecidableEq, Repr

/-- Modelled from the spec: a `tfrt::AsyncValueRef<T>`, null or the address of
a cell. -/
abbrev AsyncValueRef := Option Nat

/-- The closure that `OnReady` hands to `AndThen`:
`[event = event_.CopyRef(), callback = std::move(callback)]`.  The captured
`std::function<void(T)>` is represented by its identity; calling it is recorded
in the trace together with its argument. -/
structure Continuation where
  event : AsyncValueRef
  callback : Nat
  deriving DecidableEq, Repr

/-- Modelled from the spec: a cell is a state, the continuations waiting for it
(most recently registered first) and a reference count. -/
structure AsyncValue (T : Type) where
  state : AsyncState T
  waiters : List Continuation
  refcount : Nat
  deriving DecidableEq, Repr

/-- Modelled from the spec: `IsAvailable() -> bool`, true once the cell holds a
result. -/
def AsyncState.IsAvailable {T : Type} : AsyncState T → Bool
  | .unconstructed => false
  | .concrete _ => true
  | .error => true

/-- Modelled from the spec: `IsConcrete()`, true when the cell holds a value. -/
def AsyncState.IsConcrete {T : Type} : AsyncState T → Bool
  | .concrete _ => true
  | _ => false

/-- An observable effect of a run. -/
inductive Effect (T : Type) where
  /-- The host context's `Await` is called over these references. -/
  | await (cells : List AsyncValueRef)
  /-- The callback with this identity is called with this argument. -/
  | callback (id : Nat) (value : T)
  /-- A profiling hook reports the start of a blocking wait. -/
  | blockStart
  /-- A profiling hook reports the end of a blocking wait. -/
  | blockEnd (keys : ProfilingKeys)
  deriving DecidableEq, Repr

/-- The shape of `struct Event`: one `tfrt::AsyncValueRef<T> avr`. -/
structure PjRtEvent.Event where
  avr : AsyncValueRef
  deriving DecidableEq, Repr

/-- The heap of cells (a reference is an index into it), the trace of effects
so far, and the `Set` calls producer threads will still make, in the order in
which they take effect. -/
structure World (T : Type) where
  heap : List (AsyncValue T)
  trace : List (Effect T)
  pending : List (PjRtEvent.Event × T)
  deriving DecidableEq, Repr

/-- The world before anything is allocated. -/
def World.empty (T : Type) : World T := ⟨[], [], []⟩

/-- Dereference: the address and the cell behind a reference. -/
def World.deref {T : Type} (w : World T) (ref : AsyncValueRef) :
    Except Fault (Nat × AsyncValue T) :=
  match ref with
  | none => .error .nullDeref
  | some a =>
    match w.heap[a]? with
    | none => .error .dangling
    | some c => .ok (a, c)

/-- Replace the cell at an address. -/
def World.store {T : Type} (w : World T) (a : Nat) (c : AsyncValue T) : World T :=
  { w with heap := w.heap.set a c }

/-- Append an effect to the trace. -/
def World.emit {T : Type} (w : World T) (e : Effect T) : World T :=
  { w with trace := w.trace ++ [e] }

/-- Modelled from the spec: `tfrt::MakeUnconstructedAsyncValueRef<T>()`,
"allocates a new shared cell in `Unset` state". -/
def MakeUnconstructedAsyncValueRef {T : Type} (w : World T) : AsyncValueRef × World T :=
  (some w.heap.length, { w with heap := w.heap ++ [⟨.unconstructed, [], 1⟩] })

/-- Modelled from the spec: `tfrt::MakeAvailableAsyncValueRef<T>(t)`, a new
cell that already holds `t`. -/
def MakeAvailableAsyncValueRef {T : Type} (t : T) (w : World T) : AsyncValueRef × World T :=
  (some w.heap.length, { w with heap := w.heap ++ [⟨.concrete t, [], 1⟩] })

/-- Modelled from the spec: `AsyncValueRef::IsAvailable()`. -/
def IsAvailable {T : Type} (ref : AsyncValueRef) (w : World T) : Except Fault Bool :=
  match w.deref ref with
  | .error f => .error f
  | .ok (_, c) => .ok c.state.IsAvailable

/-- Modelled from the spec: `AsyncValueRef::IsConcrete()`. -/
def IsConcrete {T : Type} (ref : AsyncValueRef) (w : World T) : Except Fault Bool :=
  match w.deref ref with
  | .error f => .error f
  | .ok (_, c) => .ok c.state.IsConcrete

/-- Modelled from the spec: `AsyncValueRef::operator*`, "valid only when
`Concrete`; accessing before that is a contract violation". -/
def get {T : Type} (ref : AsyncValueRef) (w : World T) : Except Fault T :=
  match w.deref ref with
  | .error f => .error f
  | .ok (_, c) =>
    match c.state with
    | .concrete v => .ok v
    | _ => .error .prematureAccess

/-- Modelled from the spec: `CopyRef()` / `CopyRCRef()`, another reference to
the same cell ("refcount increment; does not create a new Cell").  A null
reference copies to a null reference. -/
def CopyRef {T : Type} (ref : AsyncValueRef) (w : World T) : AsyncValueRef × World T :=
  match w.deref ref with
  | .error _ => (ref, w)
  | .ok (a, c) => (ref, w.store a { c with refcount := c.refcount + 1 })

/-- Modelled from the spec: a reference is dropped (the end of a temporary, or
the old target of an assignment): the cell's count goes down by one. -/
def DropRef {T : Type} (ref : AsyncValueRef) (w : World T) : World T :=
  match w.deref ref with
  | .error _ => w
  | .ok (a, c) => w.store a { c with refcount := c.refcount - 1 }

/-- The body of the closure of `OnReady`:
`DCHECK(event.IsConcrete()); callback(*event);`, after which the closure and
the reference it captured are destroyed. -/
def Continuation.run {T : Type} (k : Continuation) (w : World T) : Except Fault (World T) :=
  match IsConcrete k.event w with
  | .error f => .error f
  | .ok false => .error .dcheckFailed
  | .ok true =>
    match get k.event w with
    | .error f => .error f
    | .ok v => .ok (DropRef k.event (w.emit (.callback k.callback v)))

/-- Run continuations one after the other. -/
def runWaiters {T : Type} : List Continuation → World T → Except Fault (World T)
  | [], w => .ok w
  | k :: ks, w =>
    match k.run w with
    | .error f => .error f
    | .ok w1 => runWaiters ks w1

/-- Modelled from the spec: `AsyncValueRef::emplace(value)`, the cell's `Set`:
"transitions `Unset → Concrete`, storing `value`. Precondition: cell is
currently `Unset`. Calling on an already-`Concrete` cell is a contract
violation", and it "triggers any previously registered completion callbacks". -/
def emplace {T : Type} (ref : AsyncValueRef) (value : T) (w : World T) :
    Except Fault (World T) :=
  match w.deref ref with
  | .error f => .error f
  | .ok (a, c) =>
    match c.state with
    | .unconstructed =>
      runWaiters c.waiters (w.store a { c with state := .concrete value, waiters := [] })
    | _ => .error .contractViolation

/-- Modelled from the spec: `AsyncValueRef::AndThen(waiter)`, "registers
`callback` to run exactly once ... after the cell transitions to `Concrete`";
on a cell that is already available the waiter runs at once. -/
def AndThen {T : Type} (ref : AsyncValueRef) (k : Continuation) (w : World T) :
    Except Fault (World T) :=
  match w.deref ref with
  | .error f => .error f
  | .ok (a, c) =>
    if c.state.IsAvailable then k.run w
    else .ok (w.store a { c with waiters := k :: c.waiters })

/-! ## The host execution context -/

/-- Modelled from the spec: `tfrt::HostContext`, of which the header uses only
`Await`.  The context carries no data the header can observe. -/
structure HostContext where
  id : Nat
  deriving DecidableEq, Repr

/-- Source: `struct PjRtEventContext`: the owner of one host context
(`std::unique_ptr<tfrt::HostContext> host_ctx`). -/
structure PjRtEventContext where
  host_ctx : Option HostContext
  deriving DecidableEq, Repr

/-- Source: `using OnBlockStartFn = std::function<ProfilingKeys()>`: a closure that may
report to the trace and returns the keys. -/
abbrev PjRtEventContext.OnBlockStartFn (T : Type) :=
  List (Effect T) → ProfilingKeys × List (Effect T)

/-- Source: `using OnBlockEndFn = std::function<void(ProfilingKeys)>`. -/
abbrev PjRtEventContext.OnBlockEndFn (T : Type) :=
  ProfilingKeys → List (Effect T) → List (Effect T)

/-- The default `on_block_start`: `[]() { return ProfilingKeys(); }`. -/
def defaultOnBlockStart (T : Type) : PjRtEventContext.OnBlockStartFn T :=
  fun tr => ({}, tr)

/-- The default `on_block_end`: `[](ProfilingKeys) {}`. -/
def defaultOnBlockEnd (T : Type) : PjRtEventContext.OnBlockEndFn T :=
  fun _ tr => tr

namespace PjRtEvent.Event

/-- Source: `explicit Event() = default;`: a handle bound to no cell. -/
def default : Event := ⟨none⟩

/-- Source: `Event(Event&& other) = default;`: the new handle takes over the
reference and `other` is left null.  Returns the new handle and what is left of
`other`. -/
def move (other : Event) : Event × Event := (⟨other.avr⟩, ⟨none⟩)

/-- Source: `Event(const Event& other) : avr(other.avr.CopyRef()) {}`. -/
def copy {T : Type} (other : Event) (w : World T) : Event × World T :=
  let (r, w1) := CopyRef other.avr w
  (⟨r⟩, w1)

/-- Source: `Event& operator=(const Event& other) { avr = other.avr.CopyRef(); return *this; }`:
the right-hand side is copied first, then the reference `self` held is dropped.
Returns the new value of `self`. -/
def assign {T : Type} (self other : Event) (w : World T) : Event × World T :=
  let (r, w1) := CopyRef other.avr w
  (⟨r⟩, DropRef self.avr w1)

/-- Source: `bool operator!() { return !avr; }`. -/
def operatorNot (self : Event) : Bool := self.avr.isNone

/-- Source: `void Set(T value) { avr.emplace(std::move(value)); }`. -/
def Set {T : Type} (self : Event) (value : T) (w : World T) : Except Fault (World T) :=
  emplace self.avr value w

end PjRtEvent.Event

/-- Modelled from the spec: the test `Await` waits for, whether every reference
of the list points to an available cell. -/
def allAvailable {T : Type} : List AsyncValueRef → World T → Except Fault Bool
  | [], _ => .ok true
  | r :: rs, w =>
    match IsAvailable r w with
    | .error f => .error f
    | .ok false => .ok false
    | .ok true => allAvailable rs w

/-- Modelled from the spec: the wait inside `Await`, "suspending the calling
thread until the producer calls `Set`".  While some awaited cell is not
available, the next producer `Set` takes effect; with no producer left the wait
never ends. -/
def awaitLoop {T : Type} (cells : List AsyncValueRef) :
    List (PjRtEvent.Event × T) → World T → Except Fault (World T)
  | [], w =>
    match allAvailable cells w with
    | .error f => .error f
    | .ok true => .ok { w with pending := [] }
    | .ok false => .error .blockedForever
  | (h, v) :: rest, w =>
    match allAvailable cells w with
    | .error f => .error f
    | .ok true => .ok { w with pending := (h, v) :: rest }
    | .ok false =>
      match h.Set v w with
      | .error f => .error f
      | .ok w1 => awaitLoop cells rest w1

/-- Modelled from the spec: `HostContext::Await(cells)`, "a blocking operation
that accepts one or more shared cell references and suspends the calling thread
until all are `Concrete`"; it "must never wake a waiter unless the cell has a
value".  The call is recorded in the trace. -/
def HostContext.Await {T : Type} (_ctx : HostContext) (cells : List AsyncValueRef)
    (w : World T) : Except Fault (World T) :=
  awaitLoop cells w.pending (w.emit (.await cells))

/-- The data members of `class PjRtEvent`. -/
structure PjRtEvent (T : Type) where
  /-- Not owned; may be null. -/
  host_ctx_ : Option HostContext
  event_ : AsyncValueRef
  on_block_start_ : PjRtEventContext.OnBlockStartFn T
  on_block_end_ : PjRtEventContext.OnBlockEndFn T

namespace PjRtEvent

/-- Source: `static Event CreateUnSetEvent()`:
`return Event(tfrt::MakeUnconstructedAsyncValueRef<T>());`. -/
def CreateUnSetEvent {T : Type} (w : World T) : Event × World T :=
  let (ref, w1) := MakeUnconstructedAsyncValueRef w
  (⟨ref⟩, w1)

/-- Source: `explicit PjRtEvent(T t)`: null host context, an available cell holding
`t`, and the two hooks that do nothing. -/
def ofValue {T : Type} (t : T) (w : World T) : PjRtEvent T × World T :=
  let (ref, w1) := MakeAvailableAsyncValueRef t w
  (⟨none, ref, fun tr => ({}, tr), fun _ tr => tr⟩, w1)

/-- Source: `explicit PjRtEvent(tfrt::HostContext* host_ctx, tfrt::AsyncValueRef<T> event,
on_block_start, on_block_end)`. -/
def ofAsyncValueRef {T : Type} (host_ctx : Option HostContext) (event : AsyncValueRef)
    (on_block_start : PjRtEventContext.OnBlockStartFn T)
    (on_block_end : PjRtEventContext.OnBlockEndFn T) : PjRtEvent T :=
  ⟨host_ctx, event, on_block_start, on_block_end⟩

/-- Source: `explicit PjRtEvent(const PjRtEventContext& ctx, Event event, on_block_start,
on_block_end)`: `host_ctx_(ctx.host_ctx.get())`, `event_(std::move(event.avr))`.
The parameter `event` is the caller's copy (or moved-from original) of a
handle. -/
def ofEvent {T : Type} (ctx : PjRtEventContext) (event : Event)
    (on_block_start : PjRtEventContext.OnBlockStartFn T)
    (on_block_end : PjRtEventContext.OnBlockEndFn T) : PjRtEvent T :=
  ⟨ctx.host_ctx, event.avr, on_block_start, on_block_end⟩

/-- The statement `if (!event_.IsAvailable()) { host_ctx_->Await({event_.CopyRCRef()}); }`
of `BlockHostUntilReady`: the temporary reference lives for the duration of the
call to `Await`. -/
def awaitIfNeeded {T : Type} (self : PjRtEvent T) (w : World T) : Except Fault (World T) :=
  match IsAvailable self.event_ w with
  | .error f => .error f
  | .ok true => .ok w
  | .ok false =>
    match self.host_ctx_ with
    | none => .error .nullDeref
    | some ctx =>
      let (tmp, w1) := CopyRef self.event_ w
      match ctx.Await [tmp] w1 with
      | .error f => .error f
      | .ok w2 => .ok (DropRef tmp w2)

/-- Source: `T BlockHostUntilReady()`:
```
if (!event_.IsAvailable()) { host_ctx_->Await({event_.CopyRCRef()}); }
DCHECK(event_.IsConcrete());
return *event_;
``` -/
def BlockHostUntilReady {T : Type} (self : PjRtEvent T) (w : World T) :
    Except Fault (T × World T) :=
  match self.awaitIfNeeded w with
  | .error f => .error f
  | .ok w1 =>
    match IsConcrete self.event_ w1 with
    | .error f => .error f
    | .ok false => .error .dcheckFailed
    | .ok true =>
      match get self.event_ w1 with
      | .error f => .error f
      | .ok v => .ok (v, w1)

/-- Source: `void OnReady(std::function<void(T)> callback)`:
`event_.AndThen([event = event_.CopyRef(), callback = std::move(callback)]() {...})`. -/
def OnReady {T : Type} (self : PjRtEvent T) (callback : Nat) (w : World T) :
    Except Fault (World T) :=
  let (event, w1) := CopyRef self.event_ w
  AndThen self.event_ ⟨event, callback⟩ w1

/-- Source: `static tfrt::AsyncValueRef<T> MakeUnconstructedAVR()`. -/
def MakeUnconstructedAVR {T : Type} (w : World T) : AsyncValueRef × World T :=
  MakeUnconstructedAsyncValueRef w

end PjRtEvent

/-! ## Programs over the interface -/

/-- One call of the interface.  Handles and events are passed as values, so a
program may use any handle or event it was able to build. -/
inductive Op (T : Type) where
  /-- The call `PjRtEvent<T>::CreateUnSetEvent()`. -/
  | createUnSetEvent
  /-- The copy constructor of `Event`. -/
  | copy (other : PjRtEvent.Event)
  /-- The copy assignment `self = other`. -/
  | assign (self other : PjRtEvent.Event)
  /-- The call `h.Set(value)` on the calling thread. -/
  | set (h : PjRtEvent.Event) (value : T)
  /-- The constructor `PjRtEvent(T t)`. -/
  | ofValue (t : T)
  /-- The call `e.BlockHostUntilReady()`. -/
  | blockHostUntilReady (e : PjRtEvent T)
  /-- The call `e.OnReady(callback)`. -/
  | onReady (e : PjRtEvent T) (callback : Nat)
  /-- A handle is given to a producer thread, which will call `h.Set(value)`. -/
  | producer (h : PjRtEvent.Event) (value : T)

/-- The effect of one call on the world. -/
def Op.step {T : Type} : Op T → World T → Except Fault (World T)
  | .createUnSetEvent, w => .ok (PjRtEvent.CreateUnSetEvent w).2
  | .copy other, w => .ok (other.copy w).2
  | .assign self other, w => .ok (self.assign other w).2
  | .set h value, w => h.Set value w
  | .ofValue t, w => .ok (PjRtEvent.ofValue t w).2
  | .blockHostUntilReady e, w =>
    match e.BlockHostUntilReady w with
    | .error f => .error f
    | .ok (_, w1) => .ok w1
  | .onReady e callback, w => e.OnReady callback w
  | .producer h value, w => .ok { w with pending := w.pending ++ [(h, value)] }

/-- Run a program; a fault ends it. -/
def run {T : Type} : List (Op T) → World T → Except Fault (World T)
  | [], w => .ok w
  | op :: ops, w =>
    match op.step w with
    | .error f => .error f
    | .ok w1 => run ops w1

/-- Register the callbacks of a list, in order, through `OnReady`. -/
def registerAll {T : Type} (e : PjRtEvent T) : List Nat → World T → Except Fault (World T)
  | [], w => .ok w
  | cb :: cbs, w =>
    match e.OnReady cb w with
    | .error f => .error f
    | .ok w1 => registerAll e cbs w1

/-- A cell at address `a` is in order: it is not in the error state and the
continuations waiting for it captured a reference to it. -/
def AsyncValue.inOrder {T : Type} (a : Nat) (c : AsyncValue T) : Bool :=
  (match c.state with
   | .error => false
   | _ => true) && c.waiters.all fun k => k.event == some a

/-- Every cell of the heap is in order. -/
def WellFormed {T : Type} (w : World T) : Prop :=
  ∀ (a : Nat) (h : a < w.heap.length), (w.heap[a]).inOrder a = true

instance {T : Type} (w : World T) : Decidable (WellFormed w) :=
  Nat.decidableBallLT _ _

/-- A profiling hook that reports the start of a wait to the trace. -/
def reportingOnBlockStart (T : Type) : PjRtEventContext.OnBlockStartFn T :=
  fun tr => (⟨7⟩, tr ++ [Effect.blockStart])

/-- A profiling hook that reports the end of a wait to the trace. -/
def reportingOnBlockEnd (T : Type) : PjRtEventContext.OnBlockEndFn T :=
  fun keys tr => tr ++ [Effect.blockEnd keys]

/-- What the interface can observe of the cell at an address: its state and
its waiting continuations (not its reference count). -/
def World.view {T : Type} (w : World T) (a : Nat) :
    Option (AsyncState T × List Continuation) :=
  (w.heap[a]?).map fun c => (c.state, c.waiters)

/-- No cell that holds a value in `w` loses or changes it in `w1`. -/
def Steady {T : Type} (w w1 : World T) : Prop :=
  ∀ a v ks, w.view a = some (.concrete v, ks) → ∃ ks1, w1.view a = some (.concrete v, ks1)

/-- How a handle is copied: by the copy constructor, or by copy assignment to
a handle that exists already. -/
inductive CopyStep where
  | construct
  | assignTo (target : PjRtEvent.Event)
  deriving DecidableEq, Repr

/-- A chain of copies: each step copies the handle the previous step
produced.  Returns the last copy. -/
def copyChain {T : Type} : List CopyStep → PjRtEvent.Event → World T →
    PjRtEvent.Event × World T
  | [], h, w => (h, w)
  | .construct :: rest, h, w => copyChain rest (h.copy w).1 (h.copy w).2
  | .assignTo target :: rest, h, w => copyChain rest (target.assign h w).1 (target.assign h w).2

/-! ## Worlds and events of the scenarios -/

/-- The world after `CreateUnSetEvent` in the empty world: one unset cell. -/
def unsetWorld : World Nat := ⟨[⟨.unconstructed, [], 1⟩], [], []⟩

/-- The handle `CreateUnSetEvent` returns in the empty world. -/
def firstHandle : PjRtEvent.Event := ⟨some 0⟩

/-- An event over the first cell, built from a handle with the default hooks. -/
def firstEvent : PjRtEvent Nat :=
  PjRtEvent.ofEvent ⟨some ⟨0⟩⟩ firstHandle (defaultOnBlockStart Nat) (defaultOnBlockEnd Nat)

/-- Two unset cells; the first has a waiter-to-be and its producer, the second
has a producer that runs first. -/
def waitingWorld : World Nat :=
  ⟨[⟨.unconstructed, [], 2⟩, ⟨.unconstructed, [], 1⟩], [], [(⟨some 1⟩, 9), (firstHandle, 42)]⟩

end xla

namespace xla

open PjRtEvent

variable {T : Type}

/-! ## Heap lemmas -/

theorem deref_some (w : World T) (a : Nat) (c : AsyncValue T) (h : w.heap[a]? = some c) :
    w.deref (some a) = .ok (a, c) := by
  simp [World.deref, h]

theorem heap_store_same (w : World T) (a : Nat) (c c0 : AsyncValue T)
    (h : w.heap[a]? = some c0) : (w.store a c).heap[a]? = some c := by
  have hlt : a < w.heap.length := by
    by_contra hge
    rw [List.getElem?_eq_none (by omega)] at h
    cases h
  simp [World.store, List.getElem?_set_self, hlt]

theorem heap_store_other (w : World T) (a b : Nat) (c : AsyncValue T) (h : a ≠ b) :
    (w.store a c).heap[b]? = w.heap[b]? := by
  simp [World.store, List.getElem?_set_ne h]

theorem view_some (w : World T) (a : Nat) (s : AsyncState T) (ks : List Continuation)
    (h : w.view a = some (s, ks)) :
    ∃ c, w.heap[a]? = some c ∧ c.state = s ∧ c.waiters = ks := by
  unfold World.view at h
  cases hc : w.heap[a]? with
  | none => simp [hc] at h
  | some c =>
    simp [hc] at h
    exact ⟨c, rfl, h.1, h.2⟩

theorem view_of_cell (w : World T) (a : Nat) (c : AsyncValue T) (h : w.heap[a]? = some c) :
    w.view a = some (c.state, c.waiters) := by
  simp [World.view, h]

theorem view_none (w : World T) (a : Nat) (h : w.view a = none) : w.heap[a]? = none := by
  unfold World.view at h
  cases hc : w.heap[a]? with
  | none => rfl
  | some c => simp [hc] at h

theorem view_store (w : World T) (a b : Nat) (c c0 : AsyncValue T)
    (h : w.heap[a]? = some c0) :
    (w.store a c).view b = if b = a then some (c.state, c.waiters) else w.view b := by
  by_cases hb : b = a
  · subst hb
    simp [World.view, heap_store_same w b c c0 h]
  · simp [World.view, heap_store_other w a b c (Ne.symm hb), hb]

theorem view_emit (w : World T) (e : Effect T) : (w.emit e).view = w.view := rfl

theorem IsAvailable_of_view (w : World T) (a : Nat) (s : AsyncState T)
    (ks : List Continuation) (h : w.view a = some (s, ks)) :
    IsAvailable (some a) w = .ok s.IsAvailable := by
  obtain ⟨c, hc, hs, _⟩ := view_some w a s ks h
  simp [IsAvailable, deref_some w a c hc, hs]

theorem IsConcrete_of_view (w : World T) (a : Nat) (s : AsyncState T)
    (ks : List Continuation) (h : w.view a = some (s, ks)) :
    IsConcrete (some a) w = .ok s.IsConcrete := by
  obtain ⟨c, hc, hs, _⟩ := view_some w a s ks h
  simp [IsConcrete, deref_some w a c hc, hs]

theorem get_of_view (w : World T) (a : Nat) (v : T)
    (ks : List Continuation) (h : w.view a = some (.concrete v, ks)) :
    get (some a) w = .ok v := by
  obtain ⟨c, hc, hs, _⟩ := view_some w a _ ks h
  simp [get, deref_some w a c hc, hs]

theorem CopyRef_fst (r : AsyncValueRef) (w : World T) : (CopyRef r w).1 = r := by
  unfold CopyRef
  split <;> rfl

theorem CopyRef_view (r : AsyncValueRef) (w : World T) : (CopyRef r w).2.view = w.view := by
  unfold CopyRef
  split
  · rfl
  · next a c hd =>
    funext b
    cases r with
    | none => simp [World.deref] at hd
    | some a0 =>
      cases hc : w.heap[a0]? with
      | none => simp [World.deref, hc] at hd
      | some c0 =>
        simp [World.deref, hc] at hd
        obtain ⟨rfl, rfl⟩ := hd
        rw [view_store w a0 b _ c0 hc]
        split
        · next hb => subst hb; simp [World.view, hc]
        · rfl

theorem CopyRef_trace (r : AsyncValueRef) (w : World T) : (CopyRef r w).2.trace = w.trace := by
  unfold CopyRef
  split <;> rfl

theorem CopyRef_pending (r : AsyncValueRef) (w : World T) :
    (CopyRef r w).2.pending = w.pending := by
  unfold CopyRef
  split <;> rfl

theorem CopyRef_length (r : AsyncValueRef) (w : World T) :
    (CopyRef r w).2.heap.length = w.heap.length := by
  unfold CopyRef
  split <;> simp [World.store]

theorem DropRef_view (r : AsyncValueRef) (w : World T) : (DropRef r w).view = w.view := by
  unfold DropRef
  split
  · rfl
  · next a c hd =>
    funext b
    cases r with
    | none => simp [World.deref] at hd
    | some a0 =>
      cases hc : w.heap[a0]? with
      | none => simp [World.deref, hc] at hd
      | some c0 =>
        simp [World.deref, hc] at hd
        obtain ⟨rfl, rfl⟩ := hd
        rw [view_store w a0 b _ c0 hc]
        split
        · next hb => subst hb; simp [World.view, hc]
        · rfl

theorem DropRef_trace (r : AsyncValueRef) (w : World T) : (DropRef r w).trace = w.trace := by
  unfold DropRef
  split <;> rfl

theorem DropRef_pending (r : AsyncValueRef) (w : World T) :
    (DropRef r w).pending = w.pending := by
  unfold DropRef
  split <;> rfl

theorem DropRef_length (r : AsyncValueRef) (w : World T) :
    (DropRef r w).heap.length = w.heap.length := by
  unfold DropRef
  split <;> simp [World.store]

/-- Well-formedness read through `view`. -/
theorem wellFormed_iff (w : World T) :
    WellFormed w ↔ ∀ a s ks, w.view a = some (s, ks) →
      s ≠ .error ∧ ∀ k ∈ ks, k.event = some a := by
  constructor
  · intro hw a s ks hv
    obtain ⟨c, hc, hs, hk⟩ := view_some w a s ks hv
    have hlt : a < w.heap.length := by
      by_contra hge
      rw [List.getElem?_eq_none (by omega)] at hc
      cases hc
    have h1 := hw a hlt
    rw [List.getElem?_eq_getElem hlt] at hc
    cases hc
    subst hs hk
    simp only [AsyncValue.inOrder, Bool.and_eq_true, List.all_eq_true, beq_iff_eq] at h1
    refine ⟨?_, h1.2⟩
    intro he
    rw [he] at h1
    simp at h1
  · intro h a hlt
    have hv := view_of_cell w a w.heap[a] (List.getElem?_eq_getElem hlt)
    obtain ⟨h1, h2⟩ := h a _ _ hv
    simp only [AsyncValue.inOrder, Bool.and_eq_true, List.all_eq_true, beq_iff_eq]
    refine ⟨?_, h2⟩
    cases hs : (w.heap[a]).state with
    | error => exact absurd hs h1
    | unconstructed => trivial
    | concrete v => trivial

theorem wellFormed_of_view_eq (w w1 : World T) (hv : w1.view = w.view) (hw : WellFormed w) :
    WellFormed w1 := by
  rw [wellFormed_iff] at hw ⊢
  intro a s ks h
  rw [hv] at h
  exact hw a s ks h

/-- A continuation over a concrete cell calls the callback with the value and
releases its reference. -/
theorem Continuation.run_concrete (k : Continuation) (w : World T) (a : Nat) (v : T)
    (ks : List Continuation) (hk : k.event = some a)
    (hv : w.view a = some (.concrete v, ks)) :
    k.run w = .ok (DropRef (some a) (w.emit (.callback k.callback v))) := by
  simp [Continuation.run, hk, IsConcrete_of_view w a _ ks hv, get_of_view w a v ks hv,
    AsyncState.IsConcrete]

/-- What a run of continuations over one concrete cell does. -/
theorem runWaiters_concrete (ws : List Continuation) (w : World T) (a : Nat) (v : T)
    (ks : List Continuation) (hws : ∀ k ∈ ws, k.event = some a)
    (hv : w.view a = some (.concrete v, ks)) :
    ∃ w1, runWaiters ws w = .ok w1 ∧ w1.view = w.view ∧
      w1.trace = w.trace ++ ws.map (fun k => Effect.callback k.callback v) ∧
      w1.pending = w.pending ∧ w1.heap.length = w.heap.length := by
  induction ws generalizing w with
  | nil => exact ⟨w, rfl, rfl, by simp, rfl, rfl⟩
  | cons k rest ih =>
    have hk := hws k (List.mem_cons_self _ _)
    have hrun := Continuation.run_concrete k w a v ks hk hv
    have hview : (DropRef (some a) (w.emit (.callback k.callback v))).view = w.view := by
      rw [DropRef_view, view_emit]
    obtain ⟨w1, h1, h2, h3, h4, h5⟩ := ih (DropRef (some a) (w.emit (.callback k.callback v)))
      (fun k1 hk1 => hws k1 (List.mem_cons_of_mem _ hk1)) (by rw [hview]; exact hv)
    refine ⟨w1, ?_, ?_, ?_, ?_, ?_⟩
    · simp [runWaiters, hrun, h1]
    · rw [h2, hview]
    · rw [h3, DropRef_trace]
      simp [World.emit]
    · rw [h4, DropRef_pending]
      rfl
    · rw [h5, DropRef_length]
      rfl

/-- The call `emplace` on an unset cell whose continuations captured it: the cell becomes
concrete, its continuations run, nothing else changes. -/
theorem emplace_unset (w : World T) (a : Nat) (v : T) (ks : List Continuation)
    (hks : ∀ k ∈ ks, k.event = some a) (hv : w.view a = some (.unconstructed, ks)) :
    ∃ w1, emplace (some a) v w = .ok w1 ∧
      (∀ b, w1.view b = if b = a then some (.concrete v, []) else w.view b) ∧
      w1.trace = w.trace ++ ks.map (fun k => Effect.callback k.callback v) ∧
      w1.pending = w.pending ∧ w1.heap.length = w.heap.length := by
  obtain ⟨c, hc, hs, hk⟩ := view_some w a _ ks hv
  have hv0 : ∀ b, (w.store a { c with state := .concrete v, waiters := [] }).view b =
      if b = a then some (.concrete v, []) else w.view b :=
    fun b => view_store w a b _ c hc
  have hva := hv0 a
  simp only [if_true] at hva
  obtain ⟨w1, h1, h2, h3, h4, h5⟩ := runWaiters_concrete ks _ a v [] hks hva
  refine ⟨w1, ?_, ?_, ?_, ?_, ?_⟩
  · simp [emplace, deref_some w a c hc, hs, hk, h1]
  · intro b
    rw [h2, hv0 b]
  · rw [h3]
    rfl
  · rw [h4]
    rfl
  · rw [h5]
    simp [World.store]

/-- The call `emplace` on a cell that already holds a result is a contract violation. -/
theorem emplace_available (w : World T) (a : Nat) (v : T) (s : AsyncState T)
    (ks : List Continuation) (hv : w.view a = some (s, ks)) (hs : s.IsAvailable = true) :
    emplace (some a) v w = .error .contractViolation := by
  obtain ⟨c, hc, hcs, _⟩ := view_some w a _ ks hv
  cases s with
  | unconstructed => simp [AsyncState.IsAvailable] at hs
  | concrete u => simp [emplace, deref_some w a c hc, hcs]
  | error => simp [emplace, deref_some w a c hc, hcs]

theorem Steady.refl (w : World T) : Steady w w := fun _ _ ks h => ⟨ks, h⟩

theorem Steady.trans {w w1 w2 : World T} (h1 : Steady w w1) (h2 : Steady w1 w2) :
    Steady w w2 := by
  intro a v ks h
  obtain ⟨ks1, h3⟩ := h1 a v ks h
  exact h2 a v ks1 h3

theorem Steady.of_view_eq {w w1 : World T} (h : w1.view = w.view) : Steady w w1 := by
  intro a v ks hv
  exact ⟨ks, by rw [h]; exact hv⟩

/-- Replacing what is seen of one cell by something in order keeps the world
well formed, and steady when a value that was there is kept. -/
theorem wf_steady_of_update (w w1 : World T) (a : Nat) (s1 : AsyncState T)
    (ks1 : List Continuation) (hw : WellFormed w)
    (h : ∀ b, w1.view b = if b = a then some (s1, ks1) else w.view b)
    (hs1 : s1 ≠ .error) (hks1 : ∀ k ∈ ks1, k.event = some a)
    (hold : ∀ v ks, w.view a = some (.concrete v, ks) → s1 = .concrete v) :
    WellFormed w1 ∧ Steady w w1 := by
  constructor
  · rw [wellFormed_iff] at hw ⊢
    intro b s ks hb
    rw [h b] at hb
    split at hb
    · next hba =>
      cases hb
      subst hba
      exact ⟨hs1, hks1⟩
    · exact hw b s ks hb
  · intro b v ks hb
    rw [h b]
    split
    · next hba =>
      subst hba
      exact ⟨ks1, by rw [hold v ks hb]⟩
    · exact ⟨ks, hb⟩

theorem IsAvailable_eq (r : AsyncValueRef) (w : World T) :
    IsAvailable r w =
      match r with
      | none => .error .nullDeref
      | some a =>
        match w.view a with
        | none => .error .dangling
        | some (s, _) => .ok s.IsAvailable := by
  cases r with
  | none => rfl
  | some a =>
    cases hc : w.heap[a]? with
    | none => simp [IsAvailable, World.deref, World.view, hc]
    | some c => simp [IsAvailable, World.deref, World.view, hc]

theorem IsAvailable_congr (r : AsyncValueRef) (w w1 : World T) (h : w1.view = w.view) :
    IsAvailable r w1 = IsAvailable r w := by
  rw [IsAvailable_eq, IsAvailable_eq, h]

/-- In a well-formed world an available cell is concrete. -/
theorem available_concrete (r : AsyncValueRef) (w : World T) (hw : WellFormed w)
    (h : IsAvailable r w = .ok true) :
    ∃ a v ks, r = some a ∧ w.view a = some (.concrete v, ks) := by
  rw [IsAvailable_eq] at h
  cases r with
  | none => simp at h
  | some a =>
    cases hv : w.view a with
    | none => simp [hv] at h
    | some p =>
      obtain ⟨s, ks⟩ := p
      simp [hv] at h
      have hne := ((wellFormed_iff w).1 hw a s ks hv).1
      cases s with
      | unconstructed => simp [AsyncState.IsAvailable] at h
      | concrete v => exact ⟨a, v, ks, rfl, hv⟩
      | error => exact absurd rfl hne

/-- A reference that is not yet available points to an unset cell. -/
theorem unavailable_unset (r : AsyncValueRef) (w : World T)
    (h : IsAvailable r w = .ok false) :
    ∃ a ks, r = some a ∧ w.view a = some (.unconstructed, ks) := by
  rw [IsAvailable_eq] at h
  cases r with
  | none => simp at h
  | some a =>
    cases hv : w.view a with
    | none => simp [hv] at h
    | some p =>
      obtain ⟨s, ks⟩ := p
      simp [hv] at h
      cases s with
      | unconstructed => exact ⟨a, ks, rfl, hv⟩
      | concrete v => simp [AsyncState.IsAvailable] at h
      | error => simp [AsyncState.IsAvailable] at h

/-- The outcomes of `emplace` in a well-formed world: a fault that is not a
failed `DCHECK`, or the transition of an unset cell. -/
theorem emplace_wf (r : AsyncValueRef) (v : T) (w : World T) (hw : WellFormed w) :
    (∃ f, emplace r v w = .error f ∧ f ≠ .dcheckFailed) ∨
    (∃ a ks w1, r = some a ∧ w.view a = some (.unconstructed, ks) ∧
      emplace r v w = .ok w1 ∧
      (∀ b, w1.view b = if b = a then some (.concrete v, []) else w.view b) ∧
      w1.trace = w.trace ++ ks.map (fun k => Effect.callback k.callback v) ∧
      w1.pending = w.pending ∧ w1.heap.length = w.heap.length) := by
  cases r with
  | none => exact Or.inl ⟨.nullDeref, rfl, by decide⟩
  | some a =>
    cases hv : w.view a with
    | none =>
      refine Or.inl ⟨.dangling, ?_, by decide⟩
      simp [emplace, World.deref, view_none w a hv]
    | some p =>
      obtain ⟨s, ks⟩ := p
      cases s with
      | unconstructed =>
        obtain ⟨w1, h⟩ := emplace_unset w a v ks ((wellFormed_iff w).1 hw a _ ks hv).2 hv
        exact Or.inr ⟨a, ks, w1, rfl, hv, h⟩
      | concrete u =>
        exact Or.inl ⟨.contractViolation, emplace_available w a v _ ks hv rfl, by decide⟩
      | error =>
        exact Or.inl ⟨.contractViolation, emplace_available w a v _ ks hv rfl, by decide⟩

/-- A successful `emplace` keeps the world well formed and steady. -/
theorem emplace_preserves (r : AsyncValueRef) (v : T) (w w1 : World T) (hw : WellFormed w)
    (h : emplace r v w = .ok w1) : WellFormed w1 ∧ Steady w w1 := by
  rcases emplace_wf r v w hw with ⟨f, hf, _⟩ | ⟨a, ks, w2, _, hv, h2, hview, _⟩
  · rw [hf] at h
    cases h
  · rw [h2] at h
    cases h
    refine wf_steady_of_update w w1 a _ _ hw hview (by simp) (by simp) ?_
    intro u ks1 hu
    rw [hv] at hu
    cases hu

/-- The call `OnReady` on an unset cell queues the continuation and calls nothing. -/
theorem OnReady_unset (e : PjRtEvent T) (cb : Nat) (w : World T) (a : Nat)
    (ks : List Continuation) (he : e.event_ = some a)
    (hv : w.view a = some (.unconstructed, ks)) :
    ∃ w1, e.OnReady cb w = .ok w1 ∧
      (∀ b, w1.view b = if b = a then some (.unconstructed, ⟨some a, cb⟩ :: ks) else w.view b) ∧
      w1.trace = w.trace ∧ w1.pending = w.pending ∧ w1.heap.length = w.heap.length := by
  have hv0 : (CopyRef (some a) w).2.view a = some (.unconstructed, ks) := by
    rw [CopyRef_view]; exact hv
  obtain ⟨c, hc, hs, hk⟩ := view_some _ a _ ks hv0
  refine ⟨(CopyRef (some a) w).2.store a { c with waiters := ⟨some a, cb⟩ :: c.waiters },
    ?_, ?_, ?_, ?_, ?_⟩
  · simp [OnReady, he, AndThen, deref_some _ a c hc, hs, AsyncState.IsAvailable, CopyRef_fst]
  · intro b
    rw [view_store _ a b _ c hc, CopyRef_view]
    simp [hs, hk]
  · exact CopyRef_trace _ _
  · exact CopyRef_pending _ _
  · simp [World.store, CopyRef_length]

/-- The call `OnReady` on a concrete cell calls the callback with the value. -/
theorem OnReady_concrete (e : PjRtEvent T) (cb : Nat) (w : World T) (a : Nat) (v : T)
    (ks : List Continuation) (he : e.event_ = some a)
    (hv : w.view a = some (.concrete v, ks)) :
    ∃ w1, e.OnReady cb w = .ok w1 ∧ w1.view = w.view ∧
      w1.trace = w.trace ++ [Effect.callback cb v] ∧ w1.pending = w.pending ∧
      w1.heap.length = w.heap.length := by
  have hv0 : (CopyRef (some a) w).2.view a = some (.concrete v, ks) := by
    rw [CopyRef_view]; exact hv
  obtain ⟨c, hc, hs, hk⟩ := view_some _ a _ ks hv0
  have hrun := Continuation.run_concrete ⟨some a, cb⟩ (CopyRef (some a) w).2 a v ks rfl hv0
  refine ⟨DropRef (some a) ((CopyRef (some a) w).2.emit (.callback cb v)), ?_, ?_, ?_, ?_, ?_⟩
  · simp only [OnReady, he, AndThen, deref_some _ a c hc, hs, AsyncState.IsAvailable,
      CopyRef_fst, if_true]
    exact hrun
  · rw [DropRef_view, view_emit, CopyRef_view]
  · rw [DropRef_trace]
    simp [World.emit, CopyRef_trace]
  · rw [DropRef_pending]
    simp [World.emit, CopyRef_pending]
  · rw [DropRef_length]
    simp [World.emit, CopyRef_length]

/-- The outcomes of `OnReady` in a well-formed world. -/
theorem OnReady_wf (e : PjRtEvent T) (cb : Nat) (w : World T) (hw : WellFormed w) :
    (∃ f, e.OnReady cb w = .error f ∧ f ≠ .dcheckFailed) ∨
    (∃ w1, e.OnReady cb w = .ok w1 ∧ WellFormed w1 ∧ Steady w w1) := by
  cases he : e.event_ with
  | none =>
    refine Or.inl ⟨.nullDeref, ?_, by decide⟩
    simp [OnReady, he, AndThen, World.deref]
  | some a =>
    cases hv : w.view a with
    | none =>
      refine Or.inl ⟨.dangling, ?_, by decide⟩
      have h0 : (CopyRef (some a) w).2.heap[a]? = none :=
        view_none _ a (by rw [CopyRef_view]; exact hv)
      simp [OnReady, he, AndThen, World.deref, h0]
    | some p =>
      obtain ⟨s, ks⟩ := p
      have hin := (wellFormed_iff w).1 hw a s ks hv
      cases s with
      | unconstructed =>
        obtain ⟨w1, h1, h2, _⟩ := OnReady_unset e cb w a ks he hv
        refine Or.inr ⟨w1, h1, ?_⟩
        refine wf_steady_of_update w w1 a _ _ hw h2 (by simp) ?_ ?_
        · intro k hk
          rcases List.mem_cons.1 hk with rfl | hk
          · rfl
          · exact hin.2 k hk
        · intro u ks1 hu
          rw [hv] at hu
          cases hu
      | concrete v =>
        obtain ⟨w1, h1, h2, _⟩ := OnReady_concrete e cb w a v ks he hv
        exact Or.inr ⟨w1, h1, wellFormed_of_view_eq w w1 h2 hw, Steady.of_view_eq h2⟩
      | error => exact absurd rfl hin.1

theorem allAvailable_congr (cells : List AsyncValueRef) (w w1 : World T)
    (h : w1.view = w.view) : allAvailable cells w1 = allAvailable cells w := by
  induction cells with
  | nil => rfl
  | cons r rs ih => simp only [allAvailable, IsAvailable_congr r w w1 h, ih]

theorem allAvailable_single (r : AsyncValueRef) (w : World T) :
    allAvailable [r] w = IsAvailable r w := by
  unfold allAvailable
  cases h : IsAvailable r w with
  | error f => rfl
  | ok b => cases b <;> simp [allAvailable]

theorem allAvailable_ne_dcheck (cells : List AsyncValueRef) (w : World T) (f : Fault)
    (ha : allAvailable cells w = .error f) : f ≠ .dcheckFailed := by
  induction cells with
  | nil => simp [allAvailable] at ha
  | cons r rs ih =>
    unfold allAvailable at ha
    rw [IsAvailable_eq] at ha
    cases r with
    | none =>
      simp at ha
      subst ha
      decide
    | some a =>
      cases hv : w.view a with
      | none =>
        simp [hv] at ha
        subst ha
        decide
      | some p =>
        obtain ⟨s, ks⟩ := p
        simp only [hv] at ha
        cases hs : s.IsAvailable with
        | false => simp [hs] at ha
        | true =>
          simp only [hs] at ha
          exact ih ha

/-- The wait in a well-formed world: no `DCHECK` fails, and if the wait ends the
world is well formed, steady, and every awaited cell is available. -/
theorem awaitLoop_wf (cells : List AsyncValueRef) (pend : List (Event × T)) (w : World T)
    (hw : WellFormed w) :
    awaitLoop cells pend w ≠ .error .dcheckFailed ∧
    ∀ w1, awaitLoop cells pend w = .ok w1 →
      WellFormed w1 ∧ Steady w w1 ∧ allAvailable cells w1 = .ok true := by
  induction pend generalizing w with
  | nil =>
    unfold awaitLoop
    cases ha : allAvailable cells w with
    | error f =>
      refine ⟨?_, fun w1 h => by simp at h⟩
      simpa using allAvailable_ne_dcheck cells w f ha
    | ok b =>
      cases b with
      | false => exact ⟨by simp, fun w1 h => by simp at h⟩
      | true =>
        refine ⟨by simp, fun w1 h => ?_⟩
        simp only [Except.ok.injEq] at h
        subst h
        exact ⟨wellFormed_of_view_eq w _ rfl hw, Steady.of_view_eq rfl,
          by rw [← ha]; exact allAvailable_congr cells w _ rfl⟩
  | cons p rest ih =>
    obtain ⟨h, v⟩ := p
    unfold awaitLoop
    cases ha : allAvailable cells w with
    | error f =>
      refine ⟨?_, fun w1 h => by simp at h⟩
      simpa using allAvailable_ne_dcheck cells w f ha
    | ok b =>
      cases b with
      | true =>
        refine ⟨by simp, fun w1 h1 => ?_⟩
        simp only [Except.ok.injEq] at h1
        subst h1
        exact ⟨wellFormed_of_view_eq w _ rfl hw, Steady.of_view_eq rfl,
          by rw [← ha]; exact allAvailable_congr cells w _ rfl⟩
      | false =>
        simp only [Event.Set]
        rcases emplace_wf h.avr v w hw with ⟨f, hf, hne⟩ | ⟨a, ks, w2, _, _, h2, _⟩
        · rw [hf]
          exact ⟨by simpa using hne, fun w1 h1 => by simp at h1⟩
        · obtain ⟨hw2, hst⟩ := emplace_preserves h.avr v w w2 hw h2
          rw [h2]
          obtain ⟨i1, i2⟩ := ih w2 hw2
          refine ⟨i1, fun w1 h1 => ?_⟩
          obtain ⟨j1, j2, j3⟩ := i2 w1 h1
          exact ⟨j1, hst.trans j2, j3⟩

/-- On an event whose cell is concrete, `BlockHostUntilReady` returns the value
and changes nothing. -/
theorem block_concrete (e : PjRtEvent T) (w : World T) (a : Nat) (c : AsyncValue T) (v : T)
    (href : e.event_ = some a) (hc : w.heap[a]? = some c) (hs : c.state = .concrete v) :
    e.BlockHostUntilReady w = .ok (v, w) := by
  simp [BlockHostUntilReady, awaitIfNeeded, IsAvailable, IsConcrete, get, href,
    deref_some w a c hc, hs, AsyncState.IsAvailable, AsyncState.IsConcrete]


/-- The first statement of `BlockHostUntilReady` in a well-formed world. -/
theorem awaitIfNeeded_wf (e : PjRtEvent T) (w : World T) (hw : WellFormed w) :
    e.awaitIfNeeded w ≠ .error .dcheckFailed ∧
    ∀ w1, e.awaitIfNeeded w = .ok w1 →
      WellFormed w1 ∧ Steady w w1 ∧ IsAvailable e.event_ w1 = .ok true := by
  unfold awaitIfNeeded
  cases ha : IsAvailable e.event_ w with
  | error f =>
    refine ⟨?_, fun w1 h => by simp at h⟩
    have := allAvailable_ne_dcheck [e.event_] w f (by rw [allAvailable_single]; exact ha)
    simpa using this
  | ok b =>
    cases b with
    | true =>
      refine ⟨by simp, fun w1 h => ?_⟩
      simp only [Except.ok.injEq] at h
      subst h
      exact ⟨hw, Steady.refl _, ha⟩
    | false =>
      cases hc : e.host_ctx_ with
      | none => exact ⟨by simp, fun w1 h => by simp at h⟩
      | some ctx =>
        have hwc : WellFormed ((CopyRef e.event_ w).2.emit (.await [e.event_])) :=
          wellFormed_of_view_eq w _ (by rw [view_emit, CopyRef_view]) hw
        obtain ⟨h1, h2⟩ := awaitLoop_wf [e.event_] (CopyRef e.event_ w).2.pending _ hwc
        simp only [HostContext.Await, CopyRef_fst]
        cases hl : awaitLoop [e.event_] (CopyRef e.event_ w).2.pending
            ((CopyRef e.event_ w).2.emit (.await [e.event_])) with
        | error f =>
          refine ⟨?_, fun w1 h => by simp at h⟩
          intro hf
          simp only [Except.error.injEq] at hf
          subst hf
          exact h1 hl
        | ok w2 =>
          refine ⟨by simp, fun w1 h => ?_⟩
          simp only [Except.ok.injEq] at h
          subst h
          obtain ⟨j1, j2, j3⟩ := h2 w2 hl
          refine ⟨wellFormed_of_view_eq w2 _ (DropRef_view _ _) j1, ?_, ?_⟩
          · have s0 : Steady w ((CopyRef e.event_ w).2.emit (.await [e.event_])) :=
              Steady.of_view_eq (by rw [view_emit, CopyRef_view])
            exact (s0.trans j2).trans (Steady.of_view_eq (DropRef_view _ _))
          · rw [IsAvailable_congr _ w2 _ (DropRef_view _ _), ← allAvailable_single]
            exact j3

/-- In a well-formed world `BlockHostUntilReady` fails no `DCHECK`, and when it
returns, it returns the value of its cell in a well-formed, steady world. -/
theorem BlockHostUntilReady_wf (e : PjRtEvent T) (w : World T) (hw : WellFormed w) :
    e.BlockHostUntilReady w ≠ .error .dcheckFailed ∧
    ∀ v w1, e.BlockHostUntilReady w = .ok (v, w1) →
      WellFormed w1 ∧ Steady w w1 ∧ get e.event_ w1 = .ok v := by
  obtain ⟨h1, h2⟩ := awaitIfNeeded_wf e w hw
  unfold BlockHostUntilReady
  cases ha : e.awaitIfNeeded w with
  | error f =>
    refine ⟨?_, fun v w1 h => by simp at h⟩
    intro hf
    simp only [Except.error.injEq] at hf
    subst hf
    exact h1 ha
  | ok w2 =>
    obtain ⟨j1, j2, j3⟩ := h2 w2 ha
    obtain ⟨a, u, ks, hr, hv⟩ := available_concrete e.event_ w2 j1 j3
    simp only [hr, IsConcrete_of_view w2 a _ ks hv, get_of_view w2 a u ks hv,
      AsyncState.IsConcrete]
    refine ⟨by simp, fun v w1 h => ?_⟩
    simp only [Except.ok.injEq, Prod.mk.injEq] at h
    obtain ⟨rfl, rfl⟩ := h
    exact ⟨j1, j2, get_of_view w2 a u ks hv⟩

/-- One call of the interface in a well-formed world: no `DCHECK` fails, and a
call that returns leaves the world well formed and steady. -/
theorem step_wf (op : Op T) (w : World T) (hw : WellFormed w) :
    op.step w ≠ .error .dcheckFailed ∧
    ∀ w1, op.step w = .ok w1 → WellFormed w1 ∧ Steady w w1 := by
  cases op with
  | createUnSetEvent =>
    refine ⟨by simp [Op.step], fun w1 h => ?_⟩
    simp only [Op.step, Except.ok.injEq] at h
    subst h
    have hview : ∀ b, (CreateUnSetEvent w).2.view b =
        if b = w.heap.length then some (.unconstructed, []) else w.view b := by
      intro b
      simp only [CreateUnSetEvent, MakeUnconstructedAsyncValueRef, World.view]
      by_cases hb : b = w.heap.length
      · subst hb; simp
      · rcases Nat.lt_or_gt_of_ne hb with hlt | hgt
        · simp [hb, List.getElem?_append_left hlt]
        · rw [List.getElem?_eq_none (by simp; omega), List.getElem?_eq_none (by omega)]
          simp [hb]
    refine wf_steady_of_update w _ w.heap.length _ _ hw hview (by simp) (by simp) ?_
    intro v ks hv
    obtain ⟨c, hc, _⟩ := view_some w _ _ ks hv
    rw [List.getElem?_eq_none (le_refl _)] at hc
    cases hc
  | copy other =>
    refine ⟨by simp [Op.step], fun w1 h => ?_⟩
    simp only [Op.step, Except.ok.injEq] at h
    subst h
    exact ⟨wellFormed_of_view_eq w _ (CopyRef_view _ _) hw,
      Steady.of_view_eq (CopyRef_view _ _)⟩
  | assign self other =>
    refine ⟨by simp [Op.step], fun w1 h => ?_⟩
    simp only [Op.step, Except.ok.injEq] at h
    subst h
    have hv : (self.assign other w).2.view = w.view := by
      simp only [Event.assign]
      rw [DropRef_view, CopyRef_view]
    exact ⟨wellFormed_of_view_eq w _ hv hw, Steady.of_view_eq hv⟩
  | set h v =>
    simp only [Op.step, Event.Set]
    rcases emplace_wf h.avr v w hw with ⟨f, hf, hne⟩ | ⟨a, ks, w2, _, _, h2, _⟩
    · rw [hf]
      exact ⟨by simpa using hne, fun w1 h1 => by simp at h1⟩
    · refine ⟨by simp [h2], fun w1 h1 => emplace_preserves h.avr v w w1 hw h1⟩
  | ofValue t =>
    refine ⟨by simp [Op.step], fun w1 h => ?_⟩
    simp only [Op.step, Except.ok.injEq] at h
    subst h
    have hview : ∀ b, (ofValue t w).2.view b =
        if b = w.heap.length then some (.concrete t, []) else w.view b := by
      intro b
      simp only [ofValue, MakeAvailableAsyncValueRef, World.view]
      by_cases hb : b = w.heap.length
      · subst hb; simp
      · rcases Nat.lt_or_gt_of_ne hb with hlt | hgt
        · simp [hb, List.getElem?_append_left hlt]
        · rw [List.getElem?_eq_none (by simp; omega), List.getElem?_eq_none (by omega)]
          simp [hb]
    refine wf_steady_of_update w _ w.heap.length _ _ hw hview (by simp) (by simp) ?_
    intro v ks hv
    obtain ⟨c, hc, _⟩ := view_some w _ _ ks hv
    rw [List.getElem?_eq_none (le_refl _)] at hc
    cases hc
  | blockHostUntilReady e =>
    obtain ⟨h1, h2⟩ := BlockHostUntilReady_wf e w hw
    simp only [Op.step]
    cases hb : e.BlockHostUntilReady w with
    | error f =>
      refine ⟨?_, fun w1 h => by simp at h⟩
      intro hf
      simp only [Except.error.injEq] at hf
      subst hf
      exact h1 hb
    | ok p =>
      obtain ⟨v, w2⟩ := p
      refine ⟨by simp, fun w1 h => ?_⟩
      simp only [Except.ok.injEq] at h
      subst h
      obtain ⟨j1, j2, _⟩ := h2 v w2 hb
      exact ⟨j1, j2⟩
  | onReady e cb =>
    simp only [Op.step]
    rcases OnReady_wf e cb w hw with ⟨f, hf, hne⟩ | ⟨w2, h2, j1, j2⟩
    · rw [hf]
      exact ⟨by simpa using hne, fun w1 h1 => by simp at h1⟩
    · rw [h2]
      refine ⟨by simp, fun w1 h1 => ?_⟩
      simp only [Except.ok.injEq] at h1
      subst h1
      exact ⟨j1, j2⟩
  | producer h v =>
    refine ⟨by simp [Op.step], fun w1 h1 => ?_⟩
    simp only [Op.step, Except.ok.injEq] at h1
    subst h1
    exact ⟨wellFormed_of_view_eq w _ rfl hw, Steady.of_view_eq rfl⟩

/-- A program that runs to its end from a well-formed world ends in a
well-formed world that kept every value. -/
theorem run_wf (ops : List (Op T)) (w w1 : World T) (hw : WellFormed w)
    (h : run ops w = .ok w1) : WellFormed w1 ∧ Steady w w1 := by
  induction ops generalizing w with
  | nil =>
    simp only [run, Except.ok.injEq] at h
    subst h
    exact ⟨hw, Steady.refl _⟩
  | cons op rest ih =>
    unfold run at h
    cases hs : op.step w with
    | error f => simp [hs] at h
    | ok w2 =>
      simp only [hs] at h
      obtain ⟨j1, j2⟩ := (step_wf op w hw).2 w2 hs
      obtain ⟨k1, k2⟩ := ih w2 j1 h
      exact ⟨k1, j2.trans k2⟩

theorem empty_wellFormed : WellFormed (World.empty T) := by
  intro a h
  simp [World.empty] at h

/-- Registrations on an unset cell queue up, most recent first, and call
nothing. -/
theorem registerAll_unset (e : PjRtEvent T) (regs : List Nat) (w : World T) (a : Nat)
    (ks : List Continuation) (he : e.event_ = some a)
    (hv : w.view a = some (.unconstructed, ks)) :
    ∃ w1, registerAll e regs w = .ok w1 ∧
      w1.view a = some (.unconstructed, (regs.reverse.map fun cb => ⟨some a, cb⟩) ++ ks) ∧
      (∀ b, b ≠ a → w1.view b = w.view b) ∧ w1.trace = w.trace := by
  induction regs generalizing w ks with
  | nil => exact ⟨w, rfl, by simpa using hv, fun _ _ => rfl, rfl⟩
  | cons cb rest ih =>
    obtain ⟨w0, h0, hview, htr, _⟩ := OnReady_unset e cb w a ks he hv
    obtain ⟨w1, h1, h2, h3, h4⟩ := ih w0 (⟨some a, cb⟩ :: ks) (by simpa using hview a)
    refine ⟨w1, by simp [registerAll, h0, h1], ?_, ?_, by rw [h4, htr]⟩
    · rw [h2]
      simp
    · intro b hb
      rw [h3 b hb, hview b]
      simp [hb]

/-- Registrations on a concrete cell call each callback with the value. -/
theorem registerAll_concrete (e : PjRtEvent T) (regs : List Nat) (w : World T) (a : Nat)
    (v : T) (ks : List Continuation) (he : e.event_ = some a)
    (hv : w.view a = some (.concrete v, ks)) :
    ∃ w1, registerAll e regs w = .ok w1 ∧ w1.view = w.view ∧
      w1.trace = w.trace ++ regs.map fun cb => Effect.callback cb v := by
  induction regs generalizing w with
  | nil => exact ⟨w, rfl, rfl, by simp⟩
  | cons cb rest ih =>
    obtain ⟨w0, h0, hview, htr, _⟩ := OnReady_concrete e cb w a v ks he hv
    obtain ⟨w1, h1, h2, h3⟩ := ih w0 (by rw [hview]; exact hv)
    refine ⟨w1, by simp [registerAll, h0, h1], by rw [h2, hview], ?_⟩
    rw [h3, htr]
    simp

theorem copyChain_spec (steps : List CopyStep) (h : Event) (w : World T) :
    (copyChain steps h w).1.avr = h.avr ∧ (copyChain steps h w).2.view = w.view ∧
    (copyChain steps h w).2.heap.length = w.heap.length := by
  induction steps generalizing h w with
  | nil => exact ⟨rfl, rfl, rfl⟩
  | cons st rest ih =>
    cases st with
    | construct =>
      obtain ⟨h1, h2, h3⟩ := ih (h.copy w).1 (h.copy w).2
      refine ⟨?_, ?_, ?_⟩
      · simp only [copyChain, h1]
        simp [Event.copy, CopyRef_fst]
      · simp only [copyChain, h2]
        simp [Event.copy, CopyRef_view]
      · simp only [copyChain, h3]
        simp [Event.copy, CopyRef_length]
    | assignTo target =>
      obtain ⟨h1, h2, h3⟩ := ih (target.assign h w).1 (target.assign h w).2
      refine ⟨?_, ?_, ?_⟩
      · simp only [copyChain, h1]
        simp [Event.assign, CopyRef_fst]
      · simp only [copyChain, h2]
        simp [Event.assign, CopyRef_view, DropRef_view]
      · simp only [copyChain, h3]
        simp [Event.assign, CopyRef_length, DropRef_length]

/-- A wait whose cells are available ends at once. -/
theorem awaitLoop_available (cells : List AsyncValueRef) (pend : List (Event × T))
    (w : World T) (h : allAvailable cells w = .ok true) :
    awaitLoop cells pend w = .ok { w with pending := pend } := by
  cases pend with
  | nil => simp [awaitLoop, h]
  | cons p rest =>
    obtain ⟨x, v⟩ := p
    simp [awaitLoop, h]

/-- The wait on the unset cell at `a` ends when the producers first set other
unset cells, pairwise distinct, and then set `a`: the cell holds the value of
that `Set`, the producers after it are still to come, and the trace grew by
calls of callbacks only. -/
theorem awaitLoop_reaches (a : Nat) (pre : List (Event × T)) (h : Event) (v : T)
    (post : List (Event × T)) (w : World T) (ks : List Continuation) (hw : WellFormed w)
    (ha : w.view a = some (.unconstructed, ks)) (hh : h.avr = some a)
    (hpre : ∀ p ∈ pre, p.1.avr ≠ some a ∧ IsAvailable p.1.avr w = .ok false)
    (hpw : pre.Pairwise fun p q => p.1.avr ≠ q.1.avr) :
    ∃ w1, awaitLoop [some a] (pre ++ (h, v) :: post) w = .ok w1 ∧
      w1.view a = some (.concrete v, []) ∧ w1.pending = post ∧
      ∃ tr, w1.trace = w.trace ++ tr ∧ ∀ x ∈ tr, ∃ cb u, x = Effect.callback cb u := by
  have hav : ∀ w0 : World T, ∀ ks0, w0.view a = some (.unconstructed, ks0) →
      allAvailable [some a] w0 = .ok false := by
    intro w0 ks0 h0
    rw [allAvailable_single, IsAvailable_of_view w0 a _ ks0 h0]
    rfl
  induction pre generalizing w ks with
  | nil =>
    obtain ⟨w2, h2, hview, htr, _⟩ :=
      emplace_unset w a v ks ((wellFormed_iff w).1 hw a _ ks ha).2 ha
    have hva : w2.view a = some (.concrete v, []) := by simpa using hview a
    have hall : allAvailable [some a] w2 = .ok true := by
      rw [allAvailable_single, IsAvailable_of_view w2 a _ [] hva]
      rfl
    refine ⟨{ w2 with pending := post }, ?_, hva, rfl, _, htr, ?_⟩
    · simp only [List.nil_append, awaitLoop, hav w ks ha, Event.Set, hh, h2]
      exact awaitLoop_available _ _ _ hall
    · intro x hx
      obtain ⟨k, _, rfl⟩ := List.mem_map.1 hx
      exact ⟨_, _, rfl⟩
  | cons p rest ih =>
    obtain ⟨h0, v0⟩ := p
    obtain ⟨hne, hun⟩ := hpre (h0, v0) (List.mem_cons_self _ _)
    obtain ⟨b, kb, hb, hvb⟩ := unavailable_unset _ w hun
    have hba : b ≠ a := by
      intro hba
      subst hba
      exact hne hb
    simp only at hb
    obtain ⟨w2, h2, hview, htr, _⟩ :=
      emplace_unset w b v0 kb ((wellFormed_iff w).1 hw b _ kb hvb).2 hvb
    have hw2 : WellFormed w2 := (emplace_preserves (some b) v0 w w2 hw h2).1
    have ha2 : w2.view a = some (.unconstructed, ks) := by
      rw [hview a]
      simp [Ne.symm hba, ha]
    have hpre2 : ∀ p ∈ rest, p.1.avr ≠ some a ∧ IsAvailable p.1.avr w2 = .ok false := by
      intro p hp
      obtain ⟨q1, q2⟩ := hpre p (List.mem_cons_of_mem _ hp)
      refine ⟨q1, ?_⟩
      obtain ⟨d, kd, hd, hvd⟩ := unavailable_unset _ w q2
      have hdb : d ≠ b := by
        intro hdb
        subst hdb
        have := (List.pairwise_cons.1 hpw).1 p hp
        exact this (by simp only; rw [hb, hd])
      rw [hd, IsAvailable_of_view w2 d .unconstructed kd (by rw [hview d]; simp [hdb, hvd])]
      rfl
    obtain ⟨w1, j1, j2, j3, tr, j4, j5⟩ :=
      ih w2 ks hw2 ha2 hpre2 (List.pairwise_cons.1 hpw).2
    refine ⟨w1, ?_, j2, j3, (kb.map fun k => Effect.callback k.callback v0) ++ tr, ?_, ?_⟩
    · simp only [List.cons_append, awaitLoop, hav w ks ha, Event.Set, hb, h2]
      exact j1
    · rw [j4, htr, List.append_assoc]
    · intro x hx
      rcases List.mem_append.1 hx with hx | hx
      · obtain ⟨k, _, rfl⟩ := List.mem_map.1 hx
        exact ⟨_, _, rfl⟩
      · exact j5 x hx

/-- The wait on the unset cell at `a` does not end when no producer sets it. -/
theorem awaitLoop_blocks (a : Nat) (pend : List (Event × T)) (w : World T)
    (ks : List Continuation) (hw : WellFormed w)
    (ha : w.view a = some (.unconstructed, ks))
    (hp : ∀ p ∈ pend, p.1.avr ≠ some a) (w1 : World T) :
    awaitLoop [some a] pend w ≠ .ok w1 := by
  have hav : allAvailable [some a] w = .ok false := by
    rw [allAvailable_single, IsAvailable_of_view w a _ ks ha]
    rfl
  induction pend generalizing w ks with
  | nil => simp [awaitLoop, hav]
  | cons p rest ih =>
    obtain ⟨h0, v0⟩ := p
    have hne := hp (h0, v0) (List.mem_cons_self _ _)
    simp only [awaitLoop, hav, Event.Set]
    rcases emplace_wf h0.avr v0 w hw with ⟨f, hf, _⟩ | ⟨b, kb, w2, hb, _, h2, hview, _⟩
    · rw [hf]
      simp
    · rw [h2]
      have hba : a ≠ b := by
        intro hba
        subst hba
        exact hne hb
      have ha2 : w2.view a = some (.unconstructed, ks) := by
        rw [hview a]
        simp [hba, ha]
      have hav2 : allAvailable [some a] w2 = .ok false := by
        rw [allAvailable_single, IsAvailable_of_view w2 a _ ks ha2]
        rfl
      exact ih w2 ks (emplace_preserves h0.avr v0 w w2 hw h2).1 ha2
        (fun p hp1 => hp p (List.mem_cons_of_mem _ hp1)) hav2

/-! ## The immediate-value constructor -/

/-- C2: the event constructed from a value `v` holds no host context, is
available at once, and `BlockHostUntilReady` returns `v` leaving the world, and
so the trace, as it was: `Await` is not called and the null context is not
dereferenced. -/
theorem ofValue_ready (v : T) (w : World T) :
    (ofValue v w).1.host_ctx_ = none ∧
    IsAvailable (ofValue v w).1.event_ (ofValue v w).2 = .ok true ∧
    (ofValue v w).1.BlockHostUntilReady (ofValue v w).2 = .ok (v, (ofValue v w).2) := by
  refine ⟨rfl, ?_, ?_⟩
  · simp [ofValue, MakeAvailableAsyncValueRef, IsAvailable, World.deref,
      AsyncState.IsAvailable]
  · exact block_concrete _ _ w.heap.length ⟨.concrete v, [], 1⟩ v rfl
      (by simp [ofValue, MakeAvailableAsyncValueRef]) rfl


/-! ## Set, then wait -/

/-- C1: let `h` be the handle returned by `CreateUnSetEvent` and let the program
go on in any way that leaves its cell unset.  Then `h.Set(v)` succeeds, and in
every world a later run of the program reaches, every event built by the
constructor `PjRtEvent(ctx, copy of h, hooks)` is available and its
`BlockHostUntilReady` returns `v` and leaves the world, hence the trace, as it
was: `Await` is not called, however often the call is repeated. -/
theorem set_then_block (w : World T) (hw : WellFormed w) (ops1 : List (Op T))
    (w1 : World T) (v : T) (hrun : run ops1 (CreateUnSetEvent w).2 = .ok w1)
    (hunset : IsAvailable (CreateUnSetEvent w).1.avr w1 = .ok false) :
    ∃ w2, (CreateUnSetEvent w).1.Set v w1 = .ok w2 ∧
      ∀ (ops2 : List (Op T)) (w3 w4 : World T) (ctx : PjRtEventContext)
        (s : PjRtEventContext.OnBlockStartFn T) (t : PjRtEventContext.OnBlockEndFn T),
        run ops2 w2 = .ok w3 →
        IsAvailable (ofEvent ctx ((CreateUnSetEvent w).1.copy w4).1 s t).event_ w3 = .ok true ∧
        (ofEvent ctx ((CreateUnSetEvent w).1.copy w4).1 s t).BlockHostUntilReady w3 =
          .ok (v, w3) := by
  have hw0 : WellFormed (CreateUnSetEvent w).2 :=
    ((step_wf .createUnSetEvent w hw).2 _ rfl).1
  obtain ⟨hw1, _⟩ := run_wf ops1 _ w1 hw0 hrun
  obtain ⟨a, ks, hr, hv⟩ := unavailable_unset _ w1 hunset
  obtain ⟨w2, h2, hview, _⟩ :=
    emplace_unset w1 a v ks ((wellFormed_iff w1).1 hw1 a _ ks hv).2 hv
  refine ⟨w2, by simp only [Event.Set, hr]; exact h2, ?_⟩
  intro ops2 w3 w4 ctx s t hrun2
  have hw2 : WellFormed w2 := (emplace_preserves (some a) v w1 w2 hw1 h2).1
  obtain ⟨_, hst⟩ := run_wf ops2 w2 w3 hw2 hrun2
  have hva : w2.view a = some (.concrete v, []) := by simpa using hview a
  obtain ⟨ks3, hv3⟩ := hst a v [] hva
  obtain ⟨c, hc, hs, _⟩ := view_some w3 a _ ks3 hv3
  have he : (ofEvent ctx ((CreateUnSetEvent w).1.copy w4).1 s t).event_ = some a := by
    simp only [ofEvent, Event.copy, CopyRef_fst]
    exact hr
  refine ⟨?_, block_concrete _ w3 a c v he hc hs⟩
  rw [he, IsAvailable_of_view w3 a _ ks3 hv3]
  rfl


/-- C1, witness: a handle is created in the empty world and copied; after
`Set(42)` the event built from the copy is available and returns 42. -/
theorem set_then_block_witness :
    WellFormed (World.empty Nat) ∧
    run [Op.copy ⟨some 0⟩] (CreateUnSetEvent (World.empty Nat)).2 =
      .ok ⟨[⟨.unconstructed, [], 2⟩], [], []⟩ ∧
    IsAvailable (CreateUnSetEvent (World.empty Nat)).1.avr
      (⟨[⟨.unconstructed, [], 2⟩], [], []⟩ : World Nat) = .ok false ∧
    ∃ w2, (CreateUnSetEvent (World.empty Nat)).1.Set 42 ⟨[⟨.unconstructed, [], 2⟩], [], []⟩ =
        .ok w2 ∧
      ∀ (ops2 : List (Op Nat)) (w3 w4 : World Nat) (ctx : PjRtEventContext)
        (s : PjRtEventContext.OnBlockStartFn Nat) (t : PjRtEventContext.OnBlockEndFn Nat),
        run ops2 w2 = .ok w3 →
        IsAvailable (ofEvent ctx ((CreateUnSetEvent (World.empty Nat)).1.copy w4).1 s t).event_
          w3 = .ok true ∧
        (ofEvent ctx ((CreateUnSetEvent (World.empty Nat)).1.copy w4).1 s t).BlockHostUntilReady
          w3 = .ok (42, w3) :=
  ⟨by decide, rfl, rfl,
    set_then_block (World.empty Nat) (by decide) [Op.copy ⟨some 0⟩]
      ⟨[⟨.unconstructed, [], 2⟩], [], []⟩ 42 rfl rfl⟩

/-! ## Double set -/

/-- C4: in a well-formed world, (1) when the cell of a handle is `Concrete(v)`,
then in every world a later run of the program reaches, `Set(u)` through any
handle bound to that cell is rejected as a contract violation and the cell
still holds `v`; (2) a `Set(v)` that succeeds leaves the cell `Concrete(v)`.
So a second `Set` on a cell never succeeds. -/
theorem double_set_rejected (w : World T) (hw : WellFormed w) :
    (∀ (h : Event) (v : T), get h.avr w = .ok v →
      ∀ (ops : List (Op T)) (w2 : World T), run ops w = .ok w2 →
        ∀ (h2 : Event) (u : T), h2.avr = h.avr →
          h2.Set u w2 = .error .contractViolation ∧ get h2.avr w2 = .ok v) ∧
    (∀ (h : Event) (v : T) (w1 : World T), h.Set v w = .ok w1 → get h.avr w1 = .ok v) := by
  constructor
  · intro h v hg ops w2 hrun h2 u h2h
    have hcon : ∃ a ks, h.avr = some a ∧ w.view a = some (.concrete v, ks) := by
      unfold get at hg
      cases hr : h.avr with
      | none => simp [hr, World.deref] at hg
      | some a =>
        cases hc : w.heap[a]? with
        | none => simp [hr, World.deref, hc] at hg
        | some c =>
          simp only [hr, deref_some w a c hc] at hg
          cases hs : c.state with
          | unconstructed => simp [hs] at hg
          | error => simp [hs] at hg
          | concrete x =>
            simp [hs] at hg
            subst hg
            exact ⟨a, c.waiters, rfl, by rw [view_of_cell w a c hc, hs]⟩
    obtain ⟨a, ks, hr, hv⟩ := hcon
    obtain ⟨_, hst⟩ := run_wf ops w w2 hw hrun
    obtain ⟨ks2, hv2⟩ := hst a v ks hv
    rw [Event.Set, h2h, hr]
    exact ⟨emplace_available w2 a u _ ks2 hv2 rfl, get_of_view w2 a v ks2 hv2⟩
  · intro h v w1 hset
    rcases emplace_wf h.avr v w hw with ⟨f, hf, _⟩ | ⟨a, ks, w2, hr, _, h2, hview, _⟩
    · rw [Event.Set, hf] at hset
      cases hset
    · rw [Event.Set, h2] at hset
      cases hset
      rw [hr]
      exact get_of_view w1 a v [] (by simpa using hview a)

/-- C4, witness: the cell that holds 42 rejects `Set(7)` through a copy of its
handle and still holds 42. -/
theorem double_set_rejected_witness :
    WellFormed (⟨[⟨.concrete 42, [], 1⟩], [], []⟩ : World Nat) ∧
    get (Event.mk (some 0)).avr (⟨[⟨.concrete 42, [], 1⟩], [], []⟩ : World Nat) = .ok 42 ∧
    run [Op.copy ⟨some 0⟩] (⟨[⟨.concrete 42, [], 1⟩], [], []⟩ : World Nat) =
      .ok ⟨[⟨.concrete 42, [], 2⟩], [], []⟩ ∧
    (Event.copy ⟨some 0⟩ (⟨[⟨.concrete 42, [], 1⟩], [], []⟩ : World Nat)).1.avr =
      (Event.mk (some 0)).avr ∧
    (Event.copy ⟨some 0⟩ (⟨[⟨.concrete 42, [], 1⟩], [], []⟩ : World Nat)).1.Set 7
      (⟨[⟨.concrete 42, [], 2⟩], [], []⟩ : World Nat) = .error .contractViolation ∧
    get (Event.copy ⟨some 0⟩ (⟨[⟨.concrete 42, [], 1⟩], [], []⟩ : World Nat)).1.avr
      (⟨[⟨.concrete 42, [], 2⟩], [], []⟩ : World Nat) = .ok 42 :=
  ⟨by decide, rfl, rfl, rfl,
    (double_set_rejected (⟨[⟨.concrete 42, [], 1⟩], [], []⟩ : World Nat) (by decide)).1
      ⟨some 0⟩ 42 rfl [Op.copy ⟨some 0⟩] ⟨[⟨.concrete 42, [], 2⟩], [], []⟩ rfl
      (Event.copy ⟨some 0⟩ (⟨[⟨.concrete 42, [], 1⟩], [], []⟩ : World Nat)).1 7 rfl⟩

/-! ## Waiting on an available cell -/

/-- C7: in a well-formed world, when the cell of an event is available,
`BlockHostUntilReady` returns the stored value and the world after the call is
the world before it: the trace has no new entry (no `Await`, and nothing
reported by `on_block_start_` or `on_block_end_`, whatever these hooks are) and
no cell has changed. -/
theorem block_available_unchanged (e : PjRtEvent T) (w : World T) (hw : WellFormed w)
    (ha : IsAvailable e.event_ w = .ok true) :
    ∃ v, get e.event_ w = .ok v ∧ e.BlockHostUntilReady w = .ok (v, w) := by
  obtain ⟨a, v, ks, hr, hv⟩ := available_concrete e.event_ w hw ha
  obtain ⟨c, hc, hs, _⟩ := view_some w a _ ks hv
  exact ⟨v, by rw [hr]; exact get_of_view w a v ks hv, block_concrete e w a c v hr hc hs⟩

/-- C7, witness: an event with reporting hooks over a cell that holds 42. -/
theorem block_available_unchanged_witness :
    WellFormed (⟨[⟨.concrete 42, [], 1⟩], [], []⟩ : World Nat) ∧
    IsAvailable (ofEvent ⟨some ⟨0⟩⟩ ⟨some 0⟩ (reportingOnBlockStart Nat)
      (reportingOnBlockEnd Nat)).event_ (⟨[⟨.concrete 42, [], 1⟩], [], []⟩ : World Nat) =
        .ok true ∧
    ∃ v, get (ofEvent ⟨some ⟨0⟩⟩ ⟨some 0⟩ (reportingOnBlockStart Nat)
        (reportingOnBlockEnd Nat)).event_ (⟨[⟨.concrete 42, [], 1⟩], [], []⟩ : World Nat) =
          .ok v ∧
      (ofEvent ⟨some ⟨0⟩⟩ ⟨some 0⟩ (reportingOnBlockStart Nat)
        (reportingOnBlockEnd Nat)).BlockHostUntilReady
          (⟨[⟨.concrete 42, [], 1⟩], [], []⟩ : World Nat) =
        .ok (v, ⟨[⟨.concrete 42, [], 1⟩], [], []⟩) :=
  ⟨by decide, rfl,
    block_available_unchanged _ (⟨[⟨.concrete 42, [], 1⟩], [], []⟩ : World Nat)
      (by decide) rfl⟩


/-! ## The reachable states -/

/-- C9: in every world a program over the interface reaches from the empty
world, (1) each cell is unset or concrete, never in the error state;
(2) a reference that is available is concrete; (3) no call of the interface
fails a `DCHECK`, neither the one of `BlockHostUntilReady` nor the one of a
continuation of `OnReady`; (4) a call that returns leaves every concrete cell
concrete with the same value. -/
theorem reachable_cells (ops : List (Op T)) (w : World T)
    (h : run ops (World.empty T) = .ok w) :
    (∀ (a : Nat) (c : AsyncValue T), w.heap[a]? = some c →
      c.state = .unconstructed ∨ ∃ v, c.state = .concrete v) ∧
    (∀ r : AsyncValueRef, IsAvailable r w = .ok true → IsConcrete r w = .ok true) ∧
    (∀ op : Op T, op.step w ≠ .error .dcheckFailed) ∧
    (∀ (op : Op T) (w1 : World T), op.step w = .ok w1 →
      ∀ (a : Nat) (c : AsyncValue T) (v : T), w.heap[a]? = some c → c.state = .concrete v →
        ∃ c1, w1.heap[a]? = some c1 ∧ c1.state = .concrete v) := by
  obtain ⟨hw, _⟩ := run_wf ops _ w empty_wellFormed h
  refine ⟨?_, ?_, ?_, ?_⟩
  · intro a c hc
    have hne := ((wellFormed_iff w).1 hw a _ _ (view_of_cell w a c hc)).1
    cases hs : c.state with
    | unconstructed => exact Or.inl rfl
    | concrete v => exact Or.inr ⟨v, rfl⟩
    | error => exact absurd hs hne
  · intro r hr
    obtain ⟨a, v, ks, rfl, hv⟩ := available_concrete r w hw hr
    rw [IsConcrete_of_view w a _ ks hv]
    rfl
  · intro op
    exact (step_wf op w hw).1
  · intro op w1 hs a c v hc hcs
    obtain ⟨_, hst⟩ := (step_wf op w hw).2 w1 hs
    obtain ⟨ks1, hv1⟩ := hst a v c.waiters (by rw [view_of_cell w a c hc, hcs])
    obtain ⟨c1, hc1, hs1, _⟩ := view_some w1 a _ ks1 hv1
    exact ⟨c1, hc1, hs1⟩

/-- C9, witness: create a handle, register a callback, set 42, wait. -/
theorem reachable_cells_witness :
    run [Op.createUnSetEvent, Op.onReady (ofEvent ⟨some ⟨0⟩⟩ ⟨some 0⟩
        (defaultOnBlockStart Nat) (defaultOnBlockEnd Nat)) 5, Op.set ⟨some 0⟩ 42,
      Op.blockHostUntilReady (ofEvent ⟨some ⟨0⟩⟩ ⟨some 0⟩
        (defaultOnBlockStart Nat) (defaultOnBlockEnd Nat))] (World.empty Nat) =
      .ok ⟨[⟨.concrete 42, [], 1⟩], [.callback 5 42], []⟩ ∧
    ((∀ (a : Nat) (c : AsyncValue Nat),
        (⟨[⟨.concrete 42, [], 1⟩], [.callback 5 42], []⟩ : World Nat).heap[a]? = some c →
      c.state = .unconstructed ∨ ∃ v, c.state = .concrete v) ∧
    (∀ r : AsyncValueRef,
      IsAvailable r (⟨[⟨.concrete 42, [], 1⟩], [.callback 5 42], []⟩ : World Nat) = .ok true →
      IsConcrete r (⟨[⟨.concrete 42, [], 1⟩], [.callback 5 42], []⟩ : World Nat) = .ok true) ∧
    (∀ op : Op Nat,
      op.step (⟨[⟨.concrete 42, [], 1⟩], [.callback 5 42], []⟩ : World Nat) ≠
        .error .dcheckFailed) ∧
    (∀ (op : Op Nat) (w1 : World Nat),
      op.step (⟨[⟨.concrete 42, [], 1⟩], [.callback 5 42], []⟩ : World Nat) = .ok w1 →
      ∀ (a : Nat) (c : AsyncValue Nat) (v : Nat),
        (⟨[⟨.concrete 42, [], 1⟩], [.callback 5 42], []⟩ : World Nat).heap[a]? = some c →
        c.state = .concrete v →
        ∃ c1, w1.heap[a]? = some c1 ∧ c1.state = .concrete v)) :=
  ⟨rfl,
    reachable_cells
      [Op.createUnSetEvent, Op.onReady (ofEvent ⟨some ⟨0⟩⟩ ⟨some 0⟩
          (defaultOnBlockStart Nat) (defaultOnBlockEnd Nat)) 5, Op.set ⟨some 0⟩ 42,
        Op.blockHostUntilReady (ofEvent ⟨some ⟨0⟩⟩ ⟨some 0⟩
          (defaultOnBlockStart Nat) (defaultOnBlockEnd Nat))]
      ⟨[⟨.concrete 42, [], 1⟩], [.callback 5 42], []⟩ rfl⟩

/-! ## The boolean test of a handle -/

/-- C10: for the handle `h` returned by `CreateUnSetEvent`, `!h` is false and
its cell is not available; `h.Set(v)` succeeds, makes the cell available, and
`!h` is false as before (`Set` does not touch the handle); for the
default-constructed handle `!h` is true. -/
theorem operatorNot_reports_boundness (w : World T) (v : T) :
    (CreateUnSetEvent w).1.operatorNot = false ∧
    IsAvailable (CreateUnSetEvent w).1.avr (CreateUnSetEvent w).2 = .ok false ∧
    (∃ w1, (CreateUnSetEvent w).1.Set v (CreateUnSetEvent w).2 = .ok w1 ∧
      IsAvailable (CreateUnSetEvent w).1.avr w1 = .ok true ∧
      (CreateUnSetEvent w).1.operatorNot = false) ∧
    Event.default.operatorNot = true := by
  have hv : (CreateUnSetEvent w).2.view w.heap.length = some (.unconstructed, []) := by
    simp [CreateUnSetEvent, MakeUnconstructedAsyncValueRef, World.view]
  refine ⟨rfl, ?_, ?_, rfl⟩
  · exact IsAvailable_of_view _ _ _ _ hv
  · obtain ⟨w1, h1, hview, _⟩ := emplace_unset _ w.heap.length v [] (by simp) hv
    refine ⟨w1, h1, ?_, rfl⟩
    exact IsAvailable_of_view w1 _ _ [] (by simpa using hview w.heap.length)

/-! ## The profiling hooks -/

/-- C3, the code at the failing input: an event with reporting hooks over an
unset cell, in a world where a producer is about to call `Set(42)`.
`BlockHostUntilReady` waits and returns 42, and the trace of the call is the
call of `Await` alone: neither `on_block_start_` nor `on_block_end_` is
called. -/
theorem block_unset_calls_no_hook :
    (ofEvent ⟨some ⟨0⟩⟩ ⟨some 0⟩ (reportingOnBlockStart Nat)
      (reportingOnBlockEnd Nat)).BlockHostUntilReady
        (⟨[⟨.unconstructed, [], 2⟩], [], [(⟨some 0⟩, 42)]⟩ : World Nat) =
      .ok (42, ⟨[⟨.concrete 42, [], 2⟩], [.await [some 0]], []⟩) ∧
    (reportingOnBlockEnd Nat (reportingOnBlockStart Nat []).1
      (reportingOnBlockStart Nat []).2 : List (Effect Nat)) = [.blockStart, .blockEnd ⟨7⟩] :=
  ⟨rfl, rfl⟩


/-! ## Callbacks -/

/-- C5: let `e` be an event over the cell at `a` of a well-formed world and
`v` a value.  (1) If the cell is unset: registering the callbacks `pre` through
`e.OnReady` succeeds and calls nothing (the trace is as before); then `Set(v)`
through a handle of the cell succeeds; then registering `post` succeeds; and
the calls made in all are, up to order, exactly one call with argument `v` for
each continuation that was waiting before and for each callback of `pre` and of
`post`.  (2) If the cell is `Concrete(v)`, as for an event constructed from
`v`: registering `regs` calls each of them once with `v`. -/
theorem onReady_exactly_once (w : World T) (hw : WellFormed w) (e : PjRtEvent T) (a : Nat)
    (c : AsyncValue T) (v : T) (he : e.event_ = some a) (hc : w.heap[a]? = some c) :
    (c.state = .unconstructed → ∀ (h : Event) (pre post : List Nat), h.avr = some a →
      ∃ w1 w2 w3, registerAll e pre w = .ok w1 ∧ w1.trace = w.trace ∧
        h.Set v w1 = .ok w2 ∧ registerAll e post w2 = .ok w3 ∧
        ∃ tr, w3.trace = w.trace ++ tr ∧
          tr.Perm (((c.waiters.map fun k => k.callback) ++ pre ++ post).map
            fun cb => Effect.callback cb v)) ∧
    (c.state = .concrete v → ∀ regs : List Nat,
      ∃ w1, registerAll e regs w = .ok w1 ∧
        w1.trace = w.trace ++ regs.map fun cb => Effect.callback cb v) := by
  have hv := view_of_cell w a c hc
  constructor
  · intro hs h pre post hh
    rw [hs] at hv
    obtain ⟨w1, h1, hv1, _, ht1⟩ := registerAll_unset e pre w a c.waiters he hv
    have hks : ∀ k ∈ (pre.reverse.map fun cb => (⟨some a, cb⟩ : Continuation)) ++ c.waiters,
        k.event = some a := by
      intro k hk
      rcases List.mem_append.1 hk with hk | hk
      · obtain ⟨cb, _, rfl⟩ := List.mem_map.1 hk
        rfl
      · exact ((wellFormed_iff w).1 hw a _ _ hv).2 k hk
    obtain ⟨w2, h2, hv2, ht2, _⟩ := emplace_unset w1 a v _ hks hv1
    obtain ⟨w3, h3, _, ht3⟩ :=
      registerAll_concrete e post w2 a v [] he (by simpa using hv2 a)
    refine ⟨w1, w2, w3, h1, ht1, by rw [Event.Set, hh]; exact h2, h3, ?_⟩
    refine ⟨_, by rw [ht3, ht2, ht1, List.append_assoc], ?_⟩
    simp only [List.map_append, List.map_map, List.map_reverse, List.append_assoc]
    rw [← List.append_assoc, ← List.append_assoc]
    refine List.Perm.append_right _ ?_
    have p1 : (List.map ((fun k => Effect.callback k.callback v) ∘
          fun cb => ({ event := some a, callback := cb } : Continuation)) pre).reverse.Perm
        (List.map ((fun cb => Effect.callback cb v)) pre) := by
      refine (List.reverse_perm _).trans ?_
      exact List.Perm.of_eq (List.map_congr_left fun x _ => rfl)
    have p2 : (List.map (fun k => Effect.callback k.callback v) c.waiters).Perm
        (List.map ((fun cb => Effect.callback cb v) ∘ fun k => k.callback) c.waiters) :=
      List.Perm.of_eq (List.map_congr_left fun x _ => rfl)
    exact List.perm_append_comm.trans (List.Perm.append p2 p1)
  · intro hs regs
    rw [hs] at hv
    obtain ⟨w1, h1, _, ht1⟩ := registerAll_concrete e regs w a v c.waiters he hv
    exact ⟨w1, h1, ht1⟩


/-- C5, witness: two callbacks registered on an unset cell, `Set(7)`, one more
callback registered afterwards. -/
theorem onReady_exactly_once_witness :
    WellFormed unsetWorld ∧ firstEvent.event_ = some 0 ∧
    unsetWorld.heap[0]? = some ⟨.unconstructed, [], 1⟩ ∧
    (⟨.unconstructed, [], 1⟩ : AsyncValue Nat).state = .unconstructed ∧
    firstHandle.avr = some 0 ∧
    ∃ w1 w2 w3, registerAll firstEvent [1, 2] unsetWorld = .ok w1 ∧
      w1.trace = unsetWorld.trace ∧
      firstHandle.Set 7 w1 = .ok w2 ∧ registerAll firstEvent [3] w2 = .ok w3 ∧
      ∃ tr, w3.trace = unsetWorld.trace ++ tr ∧
        tr.Perm ((((⟨.unconstructed, [], 1⟩ : AsyncValue Nat).waiters.map
          fun k : Continuation => k.callback) ++ [1, 2] ++ [3]).map
            fun cb => Effect.callback cb 7) :=
  ⟨by decide, rfl, rfl, rfl, rfl,
    (onReady_exactly_once unsetWorld (by decide) firstEvent 0 ⟨.unconstructed, [], 1⟩ 7
      rfl rfl).1 rfl firstHandle [1, 2] [3] rfl⟩

/-! ## Copies of a handle -/

/-- C6: let `c` be the last handle of a chain of copies of `h`, each made by
the copy constructor or by copy assignment.  Then `c` references the cell of
`h`, the heap has as many cells as before and every cell is seen as before.
If moreover the world is well formed and the cell of `h` is unset, then for
`x` and `y` each one of `h` and `c`: `x.Set(v)` succeeds, and afterwards the
cell is available through `y` and every event built from `y` returns `v`. -/
theorem copies_share_cell (steps : List CopyStep) (h : Event) (w : World T) :
    (copyChain steps h w).1.avr = h.avr ∧
    (copyChain steps h w).2.heap.length = w.heap.length ∧
    (copyChain steps h w).2.view = w.view ∧
    (WellFormed w → IsAvailable h.avr w = .ok false →
      ∀ (v : T) (x y : Event), x = h ∨ x = (copyChain steps h w).1 →
        y = h ∨ y = (copyChain steps h w).1 →
        ∃ w2, x.Set v (copyChain steps h w).2 = .ok w2 ∧
          IsAvailable y.avr w2 = .ok true ∧
          ∀ (ctx : PjRtEventContext) (s : PjRtEventContext.OnBlockStartFn T)
            (t : PjRtEventContext.OnBlockEndFn T),
            (ofEvent ctx y s t).BlockHostUntilReady w2 = .ok (v, w2)) := by
  obtain ⟨h1, h2, h3⟩ := copyChain_spec steps h w
  refine ⟨h1, h3, h2, ?_⟩
  intro hw hun v x y hx hy
  have hxa : x.avr = h.avr := by
    rcases hx with rfl | rfl
    · rfl
    · exact h1
  have hya : y.avr = h.avr := by
    rcases hy with rfl | rfl
    · rfl
    · exact h1
  obtain ⟨a, ks, hr, hv⟩ := unavailable_unset _ w hun
  have hv1 : (copyChain steps h w).2.view a = some (.unconstructed, ks) := by
    rw [h2]; exact hv
  obtain ⟨w2, hset, hview, _⟩ :=
    emplace_unset _ a v ks ((wellFormed_iff w).1 hw a _ ks hv).2 hv1
  have hva : w2.view a = some (.concrete v, []) := by simpa using hview a
  obtain ⟨c2, hc2, hs2, _⟩ := view_some w2 a _ [] hva
  refine ⟨w2, by rw [Event.Set, hxa, hr]; exact hset, ?_, ?_⟩
  · rw [hya, hr, IsAvailable_of_view w2 a _ [] hva]
    rfl
  · intro ctx s t
    exact block_concrete _ w2 a c2 v (by simp only [ofEvent]; rw [hya, hr]) hc2 hs2

/-- C6, witness: a copy constructed from the first handle and then assigned to
a default-constructed handle; `Set(5)` through the original is seen through
the copy. -/
theorem copies_share_cell_witness :
    WellFormed unsetWorld ∧ IsAvailable firstHandle.avr unsetWorld = .ok false ∧
    (firstHandle = firstHandle ∨
      firstHandle = (copyChain [.construct, .assignTo Event.default] firstHandle
        unsetWorld).1) ∧
    ((copyChain [.construct, .assignTo Event.default] firstHandle unsetWorld).1 = firstHandle ∨
      (copyChain [.construct, .assignTo Event.default] firstHandle unsetWorld).1 =
        (copyChain [.construct, .assignTo Event.default] firstHandle unsetWorld).1) ∧
    ∃ w2, firstHandle.Set 5
        (copyChain [.construct, .assignTo Event.default] firstHandle unsetWorld).2 = .ok w2 ∧
      IsAvailable (copyChain [.construct, .assignTo Event.default] firstHandle
        unsetWorld).1.avr w2 = .ok true ∧
      ∀ (ctx : PjRtEventContext) (s : PjRtEventContext.OnBlockStartFn Nat)
        (t : PjRtEventContext.OnBlockEndFn Nat),
        (ofEvent ctx (copyChain [.construct, .assignTo Event.default] firstHandle
          unsetWorld).1 s t).BlockHostUntilReady w2 = .ok (5, w2) :=
  ⟨by decide, rfl, Or.inl rfl, Or.inr rfl,
    (copies_share_cell [.construct, .assignTo Event.default] firstHandle unsetWorld).2.2.2
      (by decide) rfl 5 firstHandle _ (Or.inl rfl) (Or.inr rfl)⟩


/-! ## Waiting on an unset cell -/

/-- C8: let `e` be an event with a host context over the unset cell at `a` of a
well-formed world.  (1) If no producer is going to set that cell,
`BlockHostUntilReady` does not return.  (2) If the producers first set other
unset cells, pairwise distinct, and then one calls `Set(v)` on the cell at `a`,
`BlockHostUntilReady` returns `v`; the producers after that `Set` have not run;
and the trace grew by one call of `Await`, over the reference to the cell at
`a` alone, followed by calls of callbacks only. -/
theorem block_unset_awaits (e : PjRtEvent T) (w : World T) (ctx : HostContext) (a : Nat)
    (hw : WellFormed w) (hctx : e.host_ctx_ = some ctx) (he : e.event_ = some a)
    (hun : IsAvailable e.event_ w = .ok false) :
    ((∀ p ∈ w.pending, p.1.avr ≠ some a) → ∀ r, e.BlockHostUntilReady w ≠ .ok r) ∧
    (∀ (pre : List (Event × T)) (h : Event) (v : T) (post : List (Event × T)),
      w.pending = pre ++ (h, v) :: post → h.avr = some a →
      (∀ p ∈ pre, p.1.avr ≠ some a ∧ IsAvailable p.1.avr w = .ok false) →
      (pre.Pairwise fun p q => p.1.avr ≠ q.1.avr) →
      ∃ w1, e.BlockHostUntilReady w = .ok (v, w1) ∧ w1.pending = post ∧
        ∃ tr, w1.trace = w.trace ++ Effect.await [some a] :: tr ∧
          ∀ x ∈ tr, ∃ cb u, x = Effect.callback cb u) := by
  obtain ⟨a0, ks, hr, hv⟩ := unavailable_unset _ w hun
  rw [he] at hr
  cases hr
  have hview0 : ((CopyRef (some a) w).2.emit (.await [some a])).view = w.view := by
    rw [view_emit, CopyRef_view]
  have hw0 : WellFormed ((CopyRef (some a) w).2.emit (.await [some a])) :=
    wellFormed_of_view_eq w _ hview0 hw
  have hv0 : ((CopyRef (some a) w).2.emit (.await [some a])).view a =
      some (.unconstructed, ks) := by rw [hview0]; exact hv
  have hunf : e.awaitIfNeeded w =
      match awaitLoop [some a] w.pending ((CopyRef (some a) w).2.emit (.await [some a])) with
      | .error f => .error f
      | .ok w2 => .ok (DropRef (some a) w2) := by
    rw [he] at hun
    simp only [awaitIfNeeded, he, hun, hctx, HostContext.Await, CopyRef_fst, CopyRef_pending]
  constructor
  · intro hp r hret
    unfold BlockHostUntilReady at hret
    rw [hunf] at hret
    cases hl : awaitLoop [some a] w.pending
        ((CopyRef (some a) w).2.emit (.await [some a])) with
    | error f => simp [hl] at hret
    | ok w2 => exact awaitLoop_blocks a w.pending _ ks hw0 hv0 hp w2 hl
  · intro pre h v post hpend hh hpre hpw
    have hpre0 : ∀ p ∈ pre, p.1.avr ≠ some a ∧
        IsAvailable p.1.avr ((CopyRef (some a) w).2.emit (.await [some a])) = .ok false := by
      intro p hp
      obtain ⟨q1, q2⟩ := hpre p hp
      exact ⟨q1, by rw [IsAvailable_congr _ w _ hview0]; exact q2⟩
    obtain ⟨w2, j1, j2, j3, tr, j4, j5⟩ :=
      awaitLoop_reaches a pre h v post _ ks hw0 hv0 hh hpre0 hpw
    have hvd : (DropRef (some a) w2).view a = some (.concrete v, []) := by
      rw [DropRef_view]; exact j2
    refine ⟨DropRef (some a) w2, ?_, by rw [DropRef_pending]; exact j3, tr, ?_, j5⟩
    · unfold BlockHostUntilReady
      rw [hunf, hpend, j1]
      simp only [he, IsConcrete_of_view _ a _ [] hvd, get_of_view _ a v [] hvd,
        AsyncState.IsConcrete]
    · rw [DropRef_trace, j4]
      simp [World.emit, CopyRef_trace]

/-- C8, witness: a waiter on the first cell while one producer is going to
call `Set(9)` on a second cell and then another `Set(42)` on the first
(scenario 1). -/
theorem block_unset_awaits_witness :
    WellFormed waitingWorld ∧
    firstEvent.host_ctx_ = some ⟨0⟩ ∧ firstEvent.event_ = some 0 ∧
    IsAvailable firstEvent.event_ waitingWorld = .ok false ∧
    waitingWorld.pending = [(⟨some 1⟩, 9)] ++ (firstHandle, 42) :: [] ∧
    firstHandle.avr = some 0 ∧
    (∀ p ∈ ([(⟨some 1⟩, 9)] : List (Event × Nat)), p.1.avr ≠ some 0 ∧
      IsAvailable p.1.avr waitingWorld = .ok false) ∧
    (([(⟨some 1⟩, 9)] : List (Event × Nat)).Pairwise fun p q => p.1.avr ≠ q.1.avr) ∧
    ∃ w1, firstEvent.BlockHostUntilReady waitingWorld = .ok (42, w1) ∧
      w1.pending = [] ∧
      ∃ tr, w1.trace = waitingWorld.trace ++ Effect.await [some 0] :: tr ∧
        ∀ x ∈ tr, ∃ cb u, x = Effect.callback cb u :=
  ⟨by decide, rfl, rfl, rfl, rfl, rfl,
    by intro p hp; simp only [List.mem_singleton] at hp; subst hp; exact ⟨by decide, rfl⟩,
    List.pairwise_singleton _ _,
    (block_unset_awaits firstEvent waitingWorld ⟨0⟩ 0 (by decide) rfl rfl rfl).2
      [(⟨some 1⟩, 9)] firstHandle 42 [] rfl rfl
      (by intro p hp; simp only [List.mem_singleton] at hp; subst hp; exact ⟨by decide, rfl⟩)
      (List.pairwise_singleton _ _)⟩

end xla
